import Mathlib

/-!
# Rational numbers and insertion sort (`rational.go`)

A shallow embedding of the Go program `rational.go`: the `Rational` struct with
its `Rationalizer` methods, the harmonic sum, and the insertion sorts over
slices of integers, strings and `Rational`.

Conventions of the embedding.

* Go's `int` is modelled by `Int` (mathematical integers, no wrap-around).
  The definitions whose name ends in `64` read the same lines of
  `ToLowestTerms` and `Equal` in 64-bit arithmetic, where every arithmetic
  result is wrapped into `[-2^63, 2^63)`.
* Go's `/` and `%` on integers truncate towards zero: `Int.tdiv`, `Int.tmod`.
* `x *= -1` is written `x * -1`.
* A Go `error` is `Option String`: `none` is `nil`, `some msg` is `errors.New(msg)`.
  A function returning `(value, error)` returns the pair, as the Go code
  returns a value on the failure paths too.
* The interface `Rationalizer` has the single implementation `Rational`, so
  every `other Rationalizer` argument is a `Rational`.
* A slice is a `List`; `make` followed by `copy` is the list itself.
* A `for` loop is a recursive function on a fuel argument that also tests the
  loop condition of the source; the fuel supplied by the caller is the number
  of iterations the loop can make at most.
-/

namespace RationalGo

/-- The struct `Rational` (rational.go, line 59). -/
structure Rational where
  numerator : Int
  denominator : Int
deriving DecidableEq

/-- The function `makeRational` (line 64). -/
def makeRational (n d : Int) : Rational × Option String :=
  if d = 0 then
    (⟨0, 0⟩, some "cannot make a rational number with denominator equals to 0 ")
  else
    (⟨n, d⟩, none)

namespace Rational

/-- The method `Numerator` (line 73). -/
def Numerator (r : Rational) : Int := r.numerator

/-- The method `Denominator` (line 78). -/
def Denominator (r : Rational) : Int := r.denominator

/-- The method `Split` (line 83). -/
def Split (r : Rational) : Int × Int := (r.numerator, r.denominator)

/-- The sign flip `if r.denominator < 0 { r.numerator *= -1; r.denominator *= -1 }`
that opens `ToLowestTerms` and `LessThan`; the same two statements are applied
to `otherNum, otherDen` in `LessThan` and to `newNum, newDen` in `Add`,
`Multiply` and `Divide`. Over the integers the negation cannot overflow;
`flipSign64` is the 64-bit reading. -/
def flipSign (r : Rational) : Rational :=
  if r.denominator < 0 then ⟨r.numerator * -1, r.denominator * -1⟩ else r

/-- The value of `curNumerator` after the `if / else if` of lines 215-219, for
the receiver `r` as it stands after the sign flip. Over the integers the
negation cannot overflow; `curNumerator64` is the 64-bit reading. -/
def curNumerator (r : Rational) : Int :=
  if r.numerator < 0 ∧ r.denominator > 0 then r.numerator * -1 else r.numerator

/-- The value of `curDenominator` after the `if / else if` of lines 215-219. -/
def curDenominator (r : Rational) : Int :=
  if r.numerator < 0 ∧ r.denominator > 0 then r.denominator
  else if r.denominator < 0 ∧ r.numerator ≥ 0 then r.denominator * -1
  else r.denominator

/-- The loop of lines 225-229,
`for i := 1; i <= n && i <= d; i++ { if n%i == 0 && d%i == 0 { gcd = i } }`,
started at counter `i` with the current value `gcd`. -/
def gcdLoop (n d : Int) : Nat → Int → Int → Int
  | 0, _, gcd => gcd
  | fuel + 1, i, gcd =>
    if i ≤ n ∧ i ≤ d then
      gcdLoop n d fuel (i + 1) (if n.tmod i = 0 ∧ d.tmod i = 0 then i else gcd)
    else gcd

/-- The variable `gcd` after the loop: `var gcd int` starts at `0`, the counter
at `1`; the loop makes at most `n` iterations. -/
def scanGcd (n d : Int) : Int := gcdLoop n d n.toNat 1 0

/-- The method `ToLowestTerms` (line 206). -/
def ToLowestTerms (r : Rational) : Rational :=
  let r := flipSign r
  let n := curNumerator r
  let d := curDenominator r
  let gcd := scanGcd n d
  if gcd > 1 then
    ⟨r.numerator.tdiv gcd, r.denominator.tdiv gcd⟩
  else
    ⟨r.numerator, r.denominator⟩

/-- The test `r.toFloat64() < 0` of line 122, where `toFloat64` is
`float64(r.numerator) / float64(r.denominator)`. Only the sign of the IEEE
quotient is kept: it is negative when the numerator is negative and the
denominator is positive or `+0` (quotient `-Inf`), or when the numerator is
positive and the denominator negative; `0/0` is NaN and `0/d` is a zero, and
neither compares below `0`. -/
def toFloat64Negative (r : Rational) : Bool :=
  decide ((r.numerator < 0 ∧ r.denominator ≥ 0) ∨ (r.numerator > 0 ∧ r.denominator < 0))

/-- The method `Equal` (line 98). -/
def Equal (r other : Rational) : Bool :=
  let currentR : Rational := ⟨r.ToLowestTerms.Numerator, r.ToLowestTerms.Denominator⟩
  let otherR : Rational := ⟨other.ToLowestTerms.Numerator, other.ToLowestTerms.Denominator⟩
  decide (currentR.numerator * otherR.Denominator = currentR.denominator * otherR.Numerator)

/-- The method `LessThan` (line 107). -/
def LessThan (r other : Rational) : Bool :=
  let r := flipSign r
  let other' : Rational :=
    flipSign ⟨other.ToLowestTerms.Numerator, other.ToLowestTerms.Denominator⟩
  let otherNum := other'.numerator
  let otherDen := other'.denominator
  if otherDen = 0 then
    toFloat64Negative r
  else
    decide (r.numerator * otherDen < otherNum * r.denominator)

/-- The method `IsInt` (line 128). -/
def IsInt (r : Rational) : Bool :=
  if r.denominator = 0 then false else decide (r.numerator.tmod r.denominator = 0)

/-- The method `Add` (line 136). -/
def Add (r other : Rational) : Rational :=
  let newNum := r.numerator * other.Denominator + other.Numerator * r.denominator
  if newNum ≠ 0 then
    let newDen := r.denominator * other.Denominator
    if newNum = newDen then
      ⟨1, 1⟩
    else
      ToLowestTerms (flipSign ⟨newNum, newDen⟩)
  else
    ⟨0, 1⟩

/-- The method `Multiply` (line 156). -/
def Multiply (r other : Rational) : Rational :=
  let newNum := r.numerator * other.Numerator
  let newDen := r.denominator * other.Denominator
  if newNum ≠ 0 then
    if newNum = newDen then
      ⟨1, 1⟩
    else
      ToLowestTerms (flipSign ⟨newNum, newDen⟩)
  else
    ⟨0, newDen⟩

/-- The method `Divide` (line 175). -/
def Divide (r other : Rational) : Rational × Option String :=
  let newDen := r.denominator * other.Numerator
  if r.denominator ≠ 0 ∧ other.Numerator ≠ 0 ∧ other.Denominator ≠ 0 then
    let newNum := r.numerator * other.Denominator
    if newNum = newDen then
      (⟨1, 1⟩, none)
    else
      let flipped := flipSign ⟨newNum, newDen⟩
      let made := makeRational flipped.numerator flipped.denominator
      (ToLowestTerms made.1, made.2)
  else if r.denominator = 0 ∨ other.Numerator = 0 then
    (r, some " is not divisible, because either denominator of first rational number is 0 or numerator of second rational number is 0")
  else
    makeRational 0 newDen

/-- The method `Invert` (line 198). -/
def Invert (r : Rational) : Rational × Option String :=
  if r.numerator = 0 then
    (r, some "Numerator is 0, so it has no inverse")
  else
    (⟨r.denominator, r.numerator⟩, none)

end Rational

/-- The inner loop of the insertion sorts (lines 259, 273, 287),
`for j := i; j > 0 && before(newList[j-1], newList[j]); j-- { swap }`,
started at `j`; `before` is the test the sort applies to the pair
`newList[j-1], newList[j]`. The recursion is on `j` itself. An index outside
the slice, which the callers never produce, leaves the slice as it is. -/
def innerLoop {α : Type} (before : α → α → Bool) : Nat → List α → List α
  | 0, newList => newList
  | j + 1, newList =>
    match newList[j]?, newList[j + 1]? with
    | some p, some c =>
      if before p c then innerLoop before j ((newList.set (j + 1) p).set j c)
      else newList
    | _, _ => newList

/-- The outer loop of the insertion sorts,
`for i := 0; i < len(newList); i++ { inner loop from j := i }`, started at
counter `i`. -/
def outerLoop {α : Type} (before : α → α → Bool) : Nat → Nat → List α → List α
  | 0, _, newList => newList
  | fuel + 1, i, newList =>
    if i < newList.length then
      outerLoop before fuel (i + 1) (innerLoop before i newList)
    else newList

/-- The function `sortRational` (line 281): the swap test is
`newList[j-1].LessThan(newList[j])`. -/
def sortRational (lst : List Rational) : List Rational :=
  outerLoop (fun p c => p.LessThan c) lst.length 0 lst

/-- The loop of `makeHarmonicSum` (lines 245-248),
`for i := 2; i <= n; i++ { sum = sum.Add(Rational{1, i}) }`, started at
counter `i` with the current `sum`. -/
def harmonicLoop (n : Int) : Nat → Int → Rational → Rational
  | 0, _, sum => sum
  | fuel + 1, i, sum =>
    if i ≤ n then harmonicLoop n fuel (i + 1) (sum.Add ⟨1, i⟩) else sum

/-- The function `makeHarmonicSum` (line 242): the sum starts at `1/1`, the
counter at `2`; the loop makes fewer than `n` iterations. -/
def makeHarmonicSum (n : Int) : Rational :=
  harmonicLoop n n.toNat 2 ⟨1, 1⟩

/-- The function `sortInt` (line 253): the swap test is
`newList[j-1] > newList[j]`. -/
def sortInt (lst : List Int) : List Int :=
  outerLoop (fun p c => decide (p > c)) lst.length 0 lst

/-- The function `sortString` (line 267): the swap test is
`newList[j-1] > newList[j]`. Go orders strings lexicographically byte by byte,
which on UTF-8 text is the lexicographic order of the code points, the order
of `String`. -/
def sortString (lst : List String) : List String :=
  outerLoop (fun p c => decide (p > c)) lst.length 0 lst

/-- The value a 64-bit `int` holds after an arithmetic result `x`: Go wraps
around, keeping the residue of `x` modulo `2^64` in `[-2^63, 2^63)`. -/
def wrap64 (x : Int) : Int :=
  (x + 9223372036854775808) % 18446744073709551616 - 9223372036854775808

namespace Rational

/-- The sign flip of `ToLowestTerms` in 64-bit arithmetic: `*= -1` wraps. -/
def flipSign64 (r : Rational) : Rational :=
  if r.denominator < 0 then ⟨wrap64 (r.numerator * -1), wrap64 (r.denominator * -1)⟩ else r

/-- The value of `curNumerator` after lines 215-219 in 64-bit arithmetic. -/
def curNumerator64 (r : Rational) : Int :=
  if r.numerator < 0 ∧ r.denominator > 0 then wrap64 (r.numerator * -1) else r.numerator

/-- The value of `curDenominator` after lines 215-219 in 64-bit arithmetic. -/
def curDenominator64 (r : Rational) : Int :=
  if r.numerator < 0 ∧ r.denominator > 0 then r.denominator
  else if r.denominator < 0 ∧ r.numerator ≥ 0 then wrap64 (r.denominator * -1)
  else r.denominator

/-- The loop of lines 225-229 in 64-bit arithmetic: `i++` wraps, and `n%i`
with `i == 0`, which the counter can reach only after it has wrapped, is a
run-time panic. `none` stands for a run that returns no value (the panic, or
the fuel used up). -/
def gcdLoop64 (n d : Int) : Nat → Int → Int → Option Int
  | 0, _, _ => none
  | fuel + 1, i, gcd =>
    if i ≤ n ∧ i ≤ d then
      if i = 0 then none
      else gcdLoop64 n d fuel (wrap64 (i + 1)) (if n.tmod i = 0 ∧ d.tmod i = 0 then i else gcd)
    else some gcd

/-- The variable `gcd` after the loop in 64-bit arithmetic, with fuel for
`2^64` iterations: the counter starts at `1` and meets the panic at `0` after
fewer increments than that. -/
def scanGcd64 (n d : Int) : Option Int := gcdLoop64 n d 18446744073709551616 1 0

/-- The method `ToLowestTerms` (line 206) in 64-bit arithmetic. -/
def ToLowestTerms64 (r : Rational) : Option Rational :=
  let r := flipSign64 r
  let n := curNumerator64 r
  let d := curDenominator64 r
  match scanGcd64 n d with
  | none => none
  | some gcd =>
    if gcd > 1 then
      some ⟨wrap64 (r.numerator.tdiv gcd), wrap64 (r.denominator.tdiv gcd)⟩
    else
      some ⟨r.numerator, r.denominator⟩

/-- The method `Equal` (line 98) in 64-bit arithmetic: the two products wrap. -/
def Equal64 (r other : Rational) : Option Bool :=
  match ToLowestTerms64 r, ToLowestTerms64 other with
  | some currentR, some otherR =>
    some (decide (wrap64 (currentR.numerator * otherR.Denominator) =
      wrap64 (currentR.denominator * otherR.Numerator)))
  | _, _ => none

end Rational

/-! ## The divisor scan of `ToLowestTerms` -/

namespace Rational

/-- Invariant of the divisor scan: the value it returns is `0` or a common
divisor of `n` and `d`, and no common divisor up to `min n d` exceeds it. -/
theorem gcdLoop_inv (n d : Int) : ∀ (fuel : Nat) (i g : Int), 1 ≤ i →
    (n + 1 - i).toNat ≤ fuel →
    (g = 0 ∨ (1 ≤ g ∧ g ∣ n ∧ g ∣ d)) →
    (∀ c : Int, 1 ≤ c → c < i → c ∣ n → c ∣ d → c ≤ g) →
    (gcdLoop n d fuel i g = 0 ∨
      (1 ≤ gcdLoop n d fuel i g ∧ gcdLoop n d fuel i g ∣ n ∧ gcdLoop n d fuel i g ∣ d)) ∧
    (∀ c : Int, 1 ≤ c → c ≤ n → c ≤ d → c ∣ n → c ∣ d → c ≤ gcdLoop n d fuel i g) := by
  intro fuel
  induction fuel with
  | zero =>
    intro i g hi hfuel hg hmax
    simp only [gcdLoop]
    refine ⟨hg, ?_⟩
    intro c hc hcn _ hdn hdd
    exact hmax c hc (by omega) hdn hdd
  | succ fuel ih =>
    intro i g hi hfuel hg hmax
    simp only [gcdLoop]
    by_cases hcond : i ≤ n ∧ i ≤ d
    · rw [if_pos hcond]
      by_cases hdiv : n.tmod i = 0 ∧ d.tmod i = 0
      · rw [if_pos hdiv]
        apply ih (i + 1) i (by omega) (by omega)
        · exact Or.inr ⟨hi, Int.dvd_of_tmod_eq_zero hdiv.1, Int.dvd_of_tmod_eq_zero hdiv.2⟩
        · intro c _ hci _ _
          omega
      · rw [if_neg hdiv]
        apply ih (i + 1) g (by omega) (by omega) hg
        intro c hc hci hcn hcd
        by_cases hlt : c < i
        · exact hmax c hc hlt hcn hcd
        · have hceq : c = i := by omega
          subst hceq
          exact absurd ⟨Int.tmod_eq_zero_of_dvd hcn, Int.tmod_eq_zero_of_dvd hcd⟩ hdiv
    · rw [if_neg hcond]
      refine ⟨hg, ?_⟩
      intro c hc hcn hcd hdn hdd
      exact hmax c hc (by omega) hdn hdd

/-- More fuel than the loop needs does not change what it returns. -/
theorem gcdLoop_fuel (n d : Int) : ∀ (fuel : Nat) (i g : Int),
    (n + 1 - i).toNat ≤ fuel →
    gcdLoop n d fuel i g = gcdLoop n d (n + 1 - i).toNat i g := by
  intro fuel
  induction fuel with
  | zero =>
    intro i g h
    have : (n + 1 - i).toNat = 0 := by omega
    rw [this]
  | succ fuel ih =>
    intro i g h
    by_cases hcond : i ≤ n ∧ i ≤ d
    · obtain ⟨k, hk⟩ : ∃ k, (n + 1 - i).toNat = k + 1 := ⟨(n + 1 - i).toNat - 1, by omega⟩
      rw [hk]
      simp only [gcdLoop, if_pos hcond]
      rw [ih _ _ (by omega)]
      have : (n + 1 - (i + 1)).toNat = k := by omega
      rw [this]
    · cases hm : (n + 1 - i).toNat with
      | zero => simp only [gcdLoop, if_neg hcond]
      | succ k => simp only [gcdLoop, if_neg hcond]

/-- On positive arguments the scan returns the greatest common divisor. -/
theorem scanGcd_eq_gcd (n d : Int) (hn : 1 ≤ n) (hd : 1 ≤ d) :
    scanGcd n d = (Int.gcd n d : Int) := by
  have h := gcdLoop_inv n d n.toNat 1 0 (by omega) (by omega) (Or.inl rfl)
    (by intro c h1 h2; omega)
  obtain ⟨hdiv, hmax⟩ := h
  change (scanGcd n d = 0 ∨ (1 ≤ scanGcd n d ∧ scanGcd n d ∣ n ∧ scanGcd n d ∣ d)) at hdiv
  change (∀ c : Int, 1 ≤ c → c ≤ n → c ≤ d → c ∣ n → c ∣ d → c ≤ scanGcd n d) at hmax
  have hone : 1 ≤ scanGcd n d := hmax 1 (by omega) hn hd (one_dvd _) (one_dvd _)
  rcases hdiv with h0 | ⟨_, hgn, hgd⟩
  · omega
  · have hgpos : 0 < (Int.gcd n d : Int) := by
      have : 0 < Int.gcd n d := Int.gcd_pos_of_ne_zero_left d (by omega)
      exact_mod_cast this
    have h1 : scanGcd n d ∣ (Int.gcd n d : Int) := Int.dvd_gcd hgn hgd
    have h2 : scanGcd n d ≤ (Int.gcd n d : Int) := Int.le_of_dvd hgpos h1
    have h3 : (Int.gcd n d : Int) ≤ scanGcd n d :=
      hmax _ (by omega) (Int.le_of_dvd (by omega) (Int.gcd_dvd_left))
        (Int.le_of_dvd (by omega) (Int.gcd_dvd_right)) Int.gcd_dvd_left Int.gcd_dvd_right
    omega

/-! ## Sign flip and reduction -/

/-- The sign flip multiplies both fields by the sign of the denominator. -/
theorem flipSign_eq (r : Rational) (hd : r.denominator ≠ 0) :
    flipSign r = ⟨Int.sign r.denominator * r.numerator, Int.sign r.denominator * r.denominator⟩ := by
  unfold flipSign
  rcases lt_or_gt_of_ne hd with h | h
  · rw [if_pos h, Int.sign_eq_neg_one_of_neg h]
    simp
  · rw [if_neg (by omega), Int.sign_eq_one_of_pos h]
    simp

/-- After the sign flip a nonzero denominator is positive. -/
theorem flipSign_den_pos (r : Rational) (hd : r.denominator ≠ 0) :
    0 < (flipSign r).denominator := by
  unfold flipSign
  split_ifs with h
  · simp only; omega
  · omega

/-- The sign flip leaves a non-negative denominator alone. -/
theorem flipSign_of_nonneg (r : Rational) (hd : 0 ≤ r.denominator) : flipSign r = r := by
  unfold flipSign
  rw [if_neg (by omega)]

/-- The sign flip keeps the cross products with any other fraction, up to the
common sign. -/
theorem flipSign_cases (r : Rational) :
    flipSign r = r ∨ flipSign r = ⟨-r.numerator, -r.denominator⟩ := by
  unfold flipSign
  split_ifs with h
  · right; simp
  · left; rfl

/-- With a positive denominator the scan runs on the absolute value of the
numerator and on the denominator. -/
theorem cur_of_den_pos (f : Rational) (hd : 0 < f.denominator) :
    curNumerator f = |f.numerator| ∧ curDenominator f = f.denominator := by
  unfold curNumerator curDenominator
  by_cases h : f.numerator < 0
  · rw [if_pos ⟨h, hd⟩, if_pos ⟨h, hd⟩, abs_of_neg h]
    exact ⟨by omega, rfl⟩
  · rw [if_neg (fun hh => h hh.1), if_neg (fun hh => h hh.1), if_neg (by omega),
      abs_of_nonneg (by omega)]
    exact ⟨rfl, rfl⟩

/-- What the scan returns is `0` or a common divisor of the two fields of the
sign-flipped receiver. -/
theorem scanGcd_cur_dvd (f : Rational) :
    scanGcd (curNumerator f) (curDenominator f) ≤ 1 ∨
      (scanGcd (curNumerator f) (curDenominator f) ∣ f.numerator ∧
        scanGcd (curNumerator f) (curDenominator f) ∣ f.denominator) := by
  have h := (gcdLoop_inv (curNumerator f) (curDenominator f) (curNumerator f).toNat 1 0
    (by omega) (by omega) (Or.inl rfl) (by intro c h1 h2; omega)).1
  change (scanGcd _ _ = 0 ∨ (1 ≤ scanGcd _ _ ∧ scanGcd _ _ ∣ _ ∧ scanGcd _ _ ∣ _)) at h
  generalize scanGcd (curNumerator f) (curDenominator f) = g at h ⊢
  rcases h with h | ⟨_, hn, hd⟩
  · left; omega
  · right
    constructor
    · have : curNumerator f = f.numerator ∨ curNumerator f = -f.numerator := by
        unfold curNumerator; split_ifs <;> omega
      rcases this with e | e
      · rwa [e] at hn
      · rw [e] at hn; exact (Int.dvd_neg).mp hn
    · have : curDenominator f = f.denominator ∨ curDenominator f = -f.denominator := by
        unfold curDenominator; split_ifs <;> omega
      rcases this with e | e
      · rwa [e] at hd
      · rw [e] at hd; exact (Int.dvd_neg).mp hd

/-- Reduction divides both fields of the sign-flipped receiver by one positive
integer. -/
theorem ToLowestTerms_scaled (r : Rational) :
    ∃ g : Int, 0 < g ∧ (flipSign r).numerator = g * (ToLowestTerms r).numerator ∧
      (flipSign r).denominator = g * (ToLowestTerms r).denominator := by
  unfold ToLowestTerms
  simp only
  by_cases hg : scanGcd (curNumerator (flipSign r)) (curDenominator (flipSign r)) > 1
  · rw [if_pos hg]
    rcases scanGcd_cur_dvd (flipSign r) with h | ⟨hn, hd⟩
    · omega
    · exact ⟨_, by omega, (Int.mul_tdiv_cancel' hn).symm, (Int.mul_tdiv_cancel' hd).symm⟩
  · rw [if_neg hg]
    exact ⟨1, by omega, by simp, by simp⟩

/-- Reduction of a fraction with nonzero denominator has a positive denominator. -/
theorem ToLowestTerms_den_pos (r : Rational) (hd : r.denominator ≠ 0) :
    0 < (ToLowestTerms r).denominator := by
  obtain ⟨g, hg, _, h2⟩ := ToLowestTerms_scaled r
  have := flipSign_den_pos r hd
  rw [h2] at this
  exact (mul_pos_iff_of_pos_left hg).mp this

/-- The sign flip keeps the value of a fraction. -/
theorem flipSign_val (r : Rational) :
    ((flipSign r).numerator : ℚ) / ((flipSign r).denominator : ℚ) =
      (r.numerator : ℚ) / (r.denominator : ℚ) := by
  rcases flipSign_cases r with h | h
  · rw [h]
  · rw [h]
    push_cast
    rw [neg_div_neg_eq]

/-- Reduction keeps the value of a fraction. -/
theorem ToLowestTerms_val (r : Rational) :
    ((ToLowestTerms r).numerator : ℚ) / ((ToLowestTerms r).denominator : ℚ) =
      (r.numerator : ℚ) / (r.denominator : ℚ) := by
  obtain ⟨g, hg, h1, h2⟩ := ToLowestTerms_scaled r
  rw [← flipSign_val r, h1, h2]
  have hg' : (g : ℚ) ≠ 0 := by exact_mod_cast (ne_of_gt hg)
  push_cast
  rw [mul_div_mul_left _ _ hg']

/-- The sign flip is idempotent. -/
theorem flipSign_flipSign (r : Rational) : flipSign (flipSign r) = flipSign r := by
  apply flipSign_of_nonneg
  unfold flipSign
  split_ifs with h
  · simp only; omega
  · omega

/-- Reduction of a sign-flipped fraction is reduction of the fraction. -/
theorem ToLowestTerms_flipSign (r : Rational) :
    ToLowestTerms (flipSign r) = ToLowestTerms r := by
  unfold ToLowestTerms
  rw [flipSign_flipSign]

/-- The greatest common divisor of the fields is not changed by the sign flip. -/
theorem gcd_flipSign (r : Rational) :
    Int.gcd (flipSign r).numerator (flipSign r).denominator =
      Int.gcd r.numerator r.denominator := by
  rcases flipSign_cases r with h | h
  · rw [h]
  · rw [h]; simp [Int.gcd]

/-- On a fraction with nonzero numerator and denominator the scan finds the
greatest common divisor of the two fields. -/
theorem scanGcd_flipSign (r : Rational) (hn : r.numerator ≠ 0) (hd : r.denominator ≠ 0) :
    scanGcd (curNumerator (flipSign r)) (curDenominator (flipSign r)) =
      (Int.gcd r.numerator r.denominator : Int) := by
  have hpos := flipSign_den_pos r hd
  have hnum : (flipSign r).numerator ≠ 0 := by
    rcases flipSign_cases r with h | h
    · rw [h]; exact hn
    · rw [h]; simp only; omega
  obtain ⟨e1, e2⟩ := cur_of_den_pos (flipSign r) hpos
  rw [e1, e2, scanGcd_eq_gcd _ _ (by have := abs_pos.mpr hnum; omega) (by omega),
    ← gcd_flipSign r]
  simp [Int.gcd, Int.natAbs_abs]

/-- Reduction of a fraction with nonzero numerator and denominator divides the
sign-flipped fields by their greatest common divisor. -/
theorem ToLowestTerms_of_ne_zero (r : Rational) (hn : r.numerator ≠ 0)
    (hd : r.denominator ≠ 0) :
    ToLowestTerms r =
      ⟨(flipSign r).numerator / (Int.gcd r.numerator r.denominator : Int),
        (flipSign r).denominator / (Int.gcd r.numerator r.denominator : Int)⟩ := by
  have hG : 0 < Int.gcd r.numerator r.denominator := Int.gcd_pos_of_ne_zero_left _ hn
  have hdn : (Int.gcd r.numerator r.denominator : Int) ∣ (flipSign r).numerator := by
    rw [← gcd_flipSign r]; exact Int.gcd_dvd_left
  have hdd : (Int.gcd r.numerator r.denominator : Int) ∣ (flipSign r).denominator := by
    rw [← gcd_flipSign r]; exact Int.gcd_dvd_right
  unfold ToLowestTerms
  simp only
  rw [scanGcd_flipSign r hn hd]
  by_cases hg : (Int.gcd r.numerator r.denominator : Int) > 1
  · rw [if_pos hg, Int.tdiv_eq_ediv_of_dvd hdn, Int.tdiv_eq_ediv_of_dvd hdd]
  · rw [if_neg hg]
    have : (Int.gcd r.numerator r.denominator : Int) = 1 := by omega
    rw [this]
    simp

/-- Reduction of a fraction with nonzero numerator and denominator is coprime. -/
theorem ToLowestTerms_coprime (r : Rational) (hn : r.numerator ≠ 0)
    (hd : r.denominator ≠ 0) :
    Int.gcd (ToLowestTerms r).numerator (ToLowestTerms r).denominator = 1 := by
  have hG : 0 < Int.gcd r.numerator r.denominator := Int.gcd_pos_of_ne_zero_left _ hn
  rw [ToLowestTerms_of_ne_zero r hn hd]
  simp only
  rw [← gcd_flipSign r]
  rw [← gcd_flipSign r] at hG
  exact Int.gcd_div_gcd_div_gcd hG

/-- A zero numerator is returned as it is, with the sign-flipped denominator. -/
theorem ToLowestTerms_zero_num (r : Rational) (hn : r.numerator = 0) :
    ToLowestTerms r = flipSign r := by
  have h0 : (flipSign r).numerator = 0 := by
    rcases flipSign_cases r with h | h
    · rw [h]; exact hn
    · rw [h]; simp only; omega
  have hc : curNumerator (flipSign r) = 0 := by
    unfold curNumerator; rw [h0]; simp
  unfold ToLowestTerms
  simp only
  rw [hc]
  have : scanGcd 0 (curDenominator (flipSign r)) = 0 := by
    simp [scanGcd, gcdLoop]
  rw [this]
  simp



/-- Reduction keeps the cross products of the raw fields: the result denotes
the same fraction as the receiver. -/
theorem ToLowestTerms_cross (r : Rational) :
    r.numerator * (ToLowestTerms r).denominator =
      r.denominator * (ToLowestTerms r).numerator := by
  obtain ⟨g, hg, h1, h2⟩ := ToLowestTerms_scaled r
  apply mul_left_cancel₀ (ne_of_gt hg)
  rcases flipSign_cases r with h | h
  · rw [h] at h1 h2
    calc g * (r.numerator * (ToLowestTerms r).denominator)
        = r.numerator * (g * (ToLowestTerms r).denominator) := by ring
      _ = r.denominator * (g * (ToLowestTerms r).numerator) := by rw [← h1, ← h2]; ring
      _ = g * (r.denominator * (ToLowestTerms r).numerator) := by ring
  · rw [h] at h1 h2
    simp only at h1 h2
    calc g * (r.numerator * (ToLowestTerms r).denominator)
        = r.numerator * (g * (ToLowestTerms r).denominator) := by ring
      _ = r.denominator * (g * (ToLowestTerms r).numerator) := by rw [← h1, ← h2]; ring
      _ = g * (r.denominator * (ToLowestTerms r).numerator) := by ring

/-- The tail shared by `Add`, `Multiply` and `Divide`, `1/1` when the two
fields agree and the reduced sign-flipped fraction otherwise, is the canonical
form of `n/d` when neither field is zero. -/
theorem one_or_reduced (n d : Int) (hn : n ≠ 0) (hd : d ≠ 0) :
    0 < (if n = d then (⟨1, 1⟩ : Rational) else ToLowestTerms (flipSign ⟨n, d⟩)).denominator ∧
    Int.gcd (if n = d then (⟨1, 1⟩ : Rational) else ToLowestTerms (flipSign ⟨n, d⟩)).numerator
      (if n = d then (⟨1, 1⟩ : Rational) else ToLowestTerms (flipSign ⟨n, d⟩)).denominator = 1 ∧
    ((if n = d then (⟨1, 1⟩ : Rational) else ToLowestTerms (flipSign ⟨n, d⟩)).numerator : ℚ) /
      ((if n = d then (⟨1, 1⟩ : Rational) else ToLowestTerms (flipSign ⟨n, d⟩)).denominator : ℚ) =
        (n : ℚ) / (d : ℚ) := by
  by_cases h : n = d
  · rw [if_pos h]
    refine ⟨by decide, by decide, ?_⟩
    have hd' : (d : ℚ) ≠ 0 := by exact_mod_cast hd
    rw [h, div_self hd']
    norm_num
  · rw [if_neg h, ToLowestTerms_flipSign]
    exact ⟨ToLowestTerms_den_pos ⟨n, d⟩ hd, ToLowestTerms_coprime ⟨n, d⟩ hn hd,
      ToLowestTerms_val ⟨n, d⟩⟩

/-- A fraction with positive denominator and coprime fields carries the
numerator and the denominator of the rational number it denotes. -/
theorem fields_of_canonical (q : Rational) (hpos : 0 < q.denominator)
    (hco : Int.gcd q.numerator q.denominator = 1) (v : ℚ)
    (hv : (q.numerator : ℚ) / (q.denominator : ℚ) = v) :
    q.numerator = v.num ∧ q.denominator = (v.den : Int) := by
  subst hv
  exact ⟨(Rat.num_div_eq_of_coprime hpos hco).symm, (Rat.den_div_eq_of_coprime hpos hco).symm⟩

/-- The comparison made by `LessThan` when the denominator of `other` is not zero. -/
theorem LessThan_of_den_ne_zero (a b : Rational) (hb : b.denominator ≠ 0) :
    LessThan a b = decide ((flipSign a).numerator * (ToLowestTerms b).denominator <
      (ToLowestTerms b).numerator * (flipSign a).denominator) := by
  have hpos := ToLowestTerms_den_pos b hb
  unfold LessThan
  simp only [Numerator, Denominator]
  have e : flipSign ⟨(ToLowestTerms b).numerator, (ToLowestTerms b).denominator⟩ =
      ⟨(ToLowestTerms b).numerator, (ToLowestTerms b).denominator⟩ :=
    flipSign_of_nonneg _ (le_of_lt hpos)
  simp only [e]
  rw [if_neg (by omega)]

end Rational

/-! ## The loops of the sorts and of the harmonic sum -/

/-- The inner loop keeps the length of the slice. -/
theorem innerLoop_length {α : Type} (before : α → α → Bool) :
    ∀ (j : Nat) (l : List α), (innerLoop before j l).length = l.length := by
  intro j
  induction j with
  | zero => intro l; rfl
  | succ j ih =>
    intro l
    simp only [innerLoop]
    split
    · split_ifs
      · rw [ih]; simp
      · rfl
    · rfl

/-- The outer loop makes `len - i` iterations: more fuel does not change what
it returns. -/
theorem outerLoop_fuel {α : Type} (before : α → α → Bool) :
    ∀ (fuel i : Nat) (l : List α), l.length - i ≤ fuel →
      outerLoop before fuel i l = outerLoop before (l.length - i) i l := by
  intro fuel
  induction fuel with
  | zero =>
    intro i l h
    have : l.length - i = 0 := by omega
    rw [this]
  | succ fuel ih =>
    intro i l h
    by_cases hc : i < l.length
    · obtain ⟨k, hk⟩ : ∃ k, l.length - i = k + 1 := ⟨l.length - i - 1, by omega⟩
      rw [hk]
      simp only [outerLoop, if_pos hc]
      have hlen := innerLoop_length before i l
      rw [ih _ _ (by omega)]
      have : (innerLoop before i l).length - (i + 1) = k := by omega
      rw [this]
    · have : l.length - i = 0 := by omega
      rw [this]
      simp only [outerLoop, if_neg hc]

/-- The loop of `makeHarmonicSum` makes `n + 1 - i` iterations: more fuel does
not change what it returns. -/
theorem harmonicLoop_fuel (n : Int) : ∀ (fuel : Nat) (i : Int) (sum : Rational),
    (n + 1 - i).toNat ≤ fuel →
    harmonicLoop n fuel i sum = harmonicLoop n (n + 1 - i).toNat i sum := by
  intro fuel
  induction fuel with
  | zero =>
    intro i sum h
    have : (n + 1 - i).toNat = 0 := by omega
    rw [this]
  | succ fuel ih =>
    intro i sum h
    by_cases hc : i ≤ n
    · obtain ⟨k, hk⟩ : ∃ k, (n + 1 - i).toNat = k + 1 := ⟨(n + 1 - i).toNat - 1, by omega⟩
      rw [hk]
      simp only [harmonicLoop, if_pos hc]
      rw [ih _ _ (by omega)]
      have : (n + 1 - (i + 1)).toNat = k := by omega
      rw [this]
    · have : (n + 1 - i).toNat = 0 := by omega
      rw [this]
      simp only [harmonicLoop, if_neg hc]

/-- The element right after a prefix `init` is at index `init.length`. -/
theorem getElem?_after_prefix {α : Type} (init : List α) (p : α) (rest : List α) :
    (init ++ p :: rest)[init.length]? = some p := by
  induction init with
  | nil => simp
  | cons a init ih => simpa using ih

/-- The swap of the two elements that follow a prefix `init`, written as the
two assignments of the source. -/
theorem set_set_after_prefix {α : Type} (init : List α) (p x : α) (post : List α) :
    ((init ++ p :: x :: post).set (init.length + 1) p).set init.length x =
      init ++ x :: p :: post := by
  induction init with
  | nil => rfl
  | cons a init ih => simp

/-- One run of the inner loop from `j = pre.length` on `pre ++ x :: post`
inserts `x` into `pre`, walking from its right end past every element `p` with
`before p x`: read on the reversed prefix this is `List.orderedInsert`. -/
theorem innerLoop_eq_orderedInsert {α : Type} (before : α → α → Bool) (pre : List α) :
    ∀ (x : α) (post : List α),
      innerLoop before pre.length (pre ++ x :: post) =
        (List.orderedInsert (fun a b => before b a = false) x pre.reverse).reverse ++ post := by
  induction pre using List.reverseRecOn with
  | nil => intro x post; simp [innerLoop]
  | append_singleton init p ih =>
    intro x post
    have hlen : (init ++ [p]).length = init.length + 1 := by simp
    have happ : init ++ [p] ++ x :: post = init ++ p :: x :: post := by simp
    have h1 : (init ++ p :: x :: post)[init.length]? = some p :=
      getElem?_after_prefix init p (x :: post)
    have h2 : (init ++ p :: x :: post)[init.length + 1]? = some x := by
      have := getElem?_after_prefix (init ++ [p]) x post
      rwa [hlen, happ] at this
    rw [hlen, happ]
    simp only [innerLoop, h1, h2]
    by_cases hb : before p x = true
    · rw [if_pos hb, set_set_after_prefix, ih x (p :: post)]
      simp [List.orderedInsert, hb]
    · rw [if_neg hb]
      have hb' : before p x = false := by simpa using hb
      simp [List.orderedInsert, hb']

/-- The outer loop started at `i = s.length` on a slice whose first `i`
elements are `s` reversed inserts the remaining elements one after the other
into `s`. -/
theorem outerLoop_eq_foldl {α : Type} (before : α → α → Bool) :
    ∀ (rest s : List α) (fuel : Nat), rest.length ≤ fuel →
      outerLoop before fuel s.length (s.reverse ++ rest) =
        (rest.foldl (fun acc x => List.orderedInsert (fun a b => before b a = false) x acc)
          s).reverse := by
  intro rest
  induction rest with
  | nil =>
    intro s fuel _
    cases fuel with
    | zero => simp [outerLoop]
    | succ f => simp [outerLoop]
  | cons x rest ih =>
    intro s fuel hf
    obtain ⟨f, rfl⟩ : ∃ f, fuel = f + 1 := ⟨fuel - 1, by simp at hf; omega⟩
    have hlt : s.length < (s.reverse ++ x :: rest).length := by simp
    simp only [outerLoop, if_pos hlt]
    have hin := innerLoop_eq_orderedInsert before s.reverse x rest
    rw [List.length_reverse, List.reverse_reverse] at hin
    rw [hin]
    have hlen := List.orderedInsert_length (fun a b => before b a = false) s x
    rw [← hlen, ih _ f (by simp at hf; omega)]
    rfl

/-- The two loops of the insertion sorts compute the insertion sort of the
reversed slice for the relation `fun a b => before b a = false`, reversed. -/
theorem outerLoop_eq_insertionSort {α : Type} (before : α → α → Bool) (lst : List α) :
    outerLoop before lst.length 0 lst =
      (List.insertionSort (fun a b => before b a = false) lst.reverse).reverse := by
  have h := outerLoop_eq_foldl before lst [] lst.length (le_refl _)
  simp only [List.length_nil, List.reverse_nil, List.nil_append] at h
  rw [h]
  congr 1
  have : ∀ (l acc : List α),
      l.foldl (fun acc x => List.orderedInsert (fun a b => before b a = false) x acc) acc =
        l.reverse.foldr (fun x acc => List.orderedInsert (fun a b => before b a = false) x acc)
          acc := by
    intro l acc
    rw [List.foldr_reverse]
  rw [this]
  generalize lst.reverse = m
  induction m with
  | nil => rfl
  | cons a m ihm => simp [List.insertionSort, ihm]

/-! ## The claims -/

open Rational

/-- Claim C1 (the code sorts the other way round): on `[3/4, 1/2, 1/3]`
`sortRational` returns the list unchanged, in descending order, and it returns
the same descending list on the ascending input `[1/3, 1/2, 3/4]`; in the
output `1/2` is `LessThan` the element `3/4` before it. -/
theorem sortRational_descends_on_example :
    sortRational [⟨3, 4⟩, ⟨1, 2⟩, ⟨1, 3⟩] = [⟨3, 4⟩, ⟨1, 2⟩, ⟨1, 3⟩] ∧
    sortRational [⟨1, 3⟩, ⟨1, 2⟩, ⟨3, 4⟩] = [⟨3, 4⟩, ⟨1, 2⟩, ⟨1, 3⟩] ∧
    sortRational [⟨3, 4⟩, ⟨1, 2⟩, ⟨1, 3⟩] ≠ [⟨1, 3⟩, ⟨1, 2⟩, ⟨3, 4⟩] ∧
    LessThan ⟨1, 2⟩ ⟨3, 4⟩ = true := by
  decide

/-- Claim C2 (a zero numerator is not reduced): `ToLowestTerms` returns `0/4` as it
is, and `2` divides both fields of that result. -/
theorem ToLowestTerms_zero_over_four :
    ToLowestTerms ⟨0, 4⟩ = ⟨0, 4⟩ ∧
    ¬ (∀ k : Int, 1 < k →
        ¬ (k ∣ (ToLowestTerms ⟨0, 4⟩).numerator ∧ k ∣ (ToLowestTerms ⟨0, 4⟩).denominator)) := by
  have h : ToLowestTerms ⟨0, 4⟩ = ⟨0, 4⟩ := by decide
  refine ⟨h, ?_⟩
  rw [h]
  intro hall
  exact hall 2 (by decide) ⟨by decide, by decide⟩

/-- Claim C3: for a fraction with nonzero numerator and denominator the divisor scan
of `ToLowestTerms` runs on the absolute values of the fields and returns their
greatest common divisor `g`; the result is `s*numerator/g` over
`s*denominator/g` with `s` the sign of the denominator, so it has a positive
denominator, coprime fields and the value of the input. -/
theorem ToLowestTerms_finds_gcd (a : Rational) (hn : a.numerator ≠ 0)
    (hd : a.denominator ≠ 0) :
    curNumerator (flipSign a) = |a.numerator| ∧
    curDenominator (flipSign a) = |a.denominator| ∧
    scanGcd |a.numerator| |a.denominator| = (Nat.gcd a.numerator.natAbs a.denominator.natAbs : Int) ∧
    ToLowestTerms a =
      ⟨Int.sign a.denominator * a.numerator / (Nat.gcd a.numerator.natAbs a.denominator.natAbs : Int),
        Int.sign a.denominator * a.denominator /
          (Nat.gcd a.numerator.natAbs a.denominator.natAbs : Int)⟩ ∧
    0 < (ToLowestTerms a).denominator ∧
    Int.gcd (ToLowestTerms a).numerator (ToLowestTerms a).denominator = 1 ∧
    a.numerator * (ToLowestTerms a).denominator = a.denominator * (ToLowestTerms a).numerator := by
  have hpos := flipSign_den_pos a hd
  obtain ⟨e1, e2⟩ := cur_of_den_pos (flipSign a) hpos
  have hfn : |(flipSign a).numerator| = |a.numerator| := by
    rcases flipSign_cases a with h | h
    · rw [h]
    · rw [h]; simp
  have hfd : (flipSign a).denominator = |a.denominator| := by
    rw [flipSign_eq a hd]
    simp only
    rcases lt_or_gt_of_ne hd with h | h
    · rw [Int.sign_eq_neg_one_of_neg h, abs_of_neg h]; omega
    · rw [Int.sign_eq_one_of_pos h, abs_of_pos h]; omega
  have hscan := scanGcd_flipSign a hn hd
  rw [e1, e2, hfn, hfd] at hscan
  refine ⟨by rw [e1, hfn], by rw [e2, hfd], hscan, ?_, ToLowestTerms_den_pos a hd,
    ToLowestTerms_coprime a hn hd, ?_⟩
  · have := ToLowestTerms_of_ne_zero a hn hd
    rw [flipSign_eq a hd] at this
    exact this
  · exact ToLowestTerms_cross a

/-- Witness of C3 at `6/(-4)`, which reduces to `-3/2`. -/
theorem ToLowestTerms_finds_gcd_witness :
    scanGcd |(6 : Int)| |(-4 : Int)| = 2 ∧ ToLowestTerms ⟨6, -4⟩ = ⟨-3, 2⟩ := by
  have h := ToLowestTerms_finds_gcd ⟨6, -4⟩ (by decide) (by decide)
  exact ⟨h.2.2.1, by decide⟩

/-- Claim C4: for fractions with nonzero denominators `Equal` holds exactly when the
cross products of the raw fields agree, that is when the two fractions are
the same rational number. -/
theorem Equal_iff_same_value (a b : Rational) (ha : a.denominator ≠ 0)
    (hb : b.denominator ≠ 0) :
    (Equal a b = true ↔ a.numerator * b.denominator = a.denominator * b.numerator) ∧
    (Equal a b = true ↔
      (a.numerator : ℚ) / (a.denominator : ℚ) = (b.numerator : ℚ) / (b.denominator : ℚ)) := by
  have hta := ToLowestTerms_den_pos a ha
  have htb := ToLowestTerms_den_pos b hb
  have hq : (Equal a b = true ↔
      (a.numerator : ℚ) / (a.denominator : ℚ) = (b.numerator : ℚ) / (b.denominator : ℚ)) := by
    unfold Equal
    simp only [Numerator, Denominator, decide_eq_true_eq]
    rw [← ToLowestTerms_val a, ← ToLowestTerms_val b,
      div_eq_div_iff (by exact_mod_cast (ne_of_gt hta)) (by exact_mod_cast (ne_of_gt htb))]
    constructor
    · intro h
      have : (((ToLowestTerms a).numerator * (ToLowestTerms b).denominator : Int) : ℚ) =
          (((ToLowestTerms a).denominator * (ToLowestTerms b).numerator : Int) : ℚ) := by rw [h]
      push_cast at this
      linarith
    · intro h
      have : (((ToLowestTerms a).numerator * (ToLowestTerms b).denominator : Int) : ℚ) =
          (((ToLowestTerms a).denominator * (ToLowestTerms b).numerator : Int) : ℚ) := by
        push_cast; linarith
      exact_mod_cast this
  refine ⟨?_, hq⟩
  rw [hq, div_eq_div_iff (by exact_mod_cast ha) (by exact_mod_cast hb)]
  constructor
  · intro h
    have : ((a.numerator * b.denominator : Int) : ℚ) = ((a.denominator * b.numerator : Int) : ℚ) := by
      push_cast; linarith
    exact_mod_cast this
  · intro h
    have : ((a.numerator * b.denominator : Int) : ℚ) = ((a.denominator * b.numerator : Int) : ℚ) := by
      rw [h]
    push_cast at this
    linarith

/-- Witness of C4: `2/4` and `1/2` are `Equal`. -/
theorem Equal_iff_same_value_witness : Equal ⟨2, 4⟩ ⟨1, 2⟩ = true :=
  (Equal_iff_same_value ⟨2, 4⟩ ⟨1, 2⟩ (by decide) (by decide)).1.mpr (by decide)

/-- Claim C5: for fractions with nonzero denominators of either sign `LessThan a b`
holds exactly when the rational number `a.num/a.den` is strictly less than
`b.num/b.den`. -/
theorem LessThan_iff_value_lt (a b : Rational) (ha : a.denominator ≠ 0)
    (hb : b.denominator ≠ 0) :
    LessThan a b = true ↔
      (a.numerator : ℚ) / (a.denominator : ℚ) < (b.numerator : ℚ) / (b.denominator : ℚ) := by
  have hfa := flipSign_den_pos a ha
  have htb := ToLowestTerms_den_pos b hb
  rw [LessThan_of_den_ne_zero a b hb, decide_eq_true_eq, ← flipSign_val a, ← ToLowestTerms_val b,
    div_lt_div_iff₀ (by exact_mod_cast hfa) (by exact_mod_cast htb)]
  constructor
  · intro h
    exact_mod_cast h
  · intro h
    exact_mod_cast h

/-- Witness of C5: `1/(-2)` is `LessThan` `(-1)/(-3)`. -/
theorem LessThan_iff_value_lt_witness : LessThan ⟨1, -2⟩ ⟨-1, -3⟩ = true :=
  (LessThan_iff_value_lt ⟨1, -2⟩ ⟨-1, -3⟩ (by decide) (by decide)).mpr (by norm_num)

/-- Claim C6: for fractions with nonzero denominators `Add` returns the canonical
representation of the sum: positive denominator, coprime fields, the value
`a.num/a.den + b.num/b.den`, hence the numerator and denominator of that
rational number; a zero sum is `0/1` and a sum of one is `1/1`. -/
theorem Add_canonical (a b : Rational) (ha : a.denominator ≠ 0) (hb : b.denominator ≠ 0) :
    0 < (Rational.Add a b).denominator ∧
    Int.gcd (Rational.Add a b).numerator (Rational.Add a b).denominator = 1 ∧
    ((Rational.Add a b).numerator : ℚ) / ((Rational.Add a b).denominator : ℚ) =
      (a.numerator : ℚ) / (a.denominator : ℚ) + (b.numerator : ℚ) / (b.denominator : ℚ) ∧
    (Rational.Add a b).numerator =
      ((a.numerator : ℚ) / (a.denominator : ℚ) + (b.numerator : ℚ) / (b.denominator : ℚ)).num ∧
    (Rational.Add a b).denominator =
      (((a.numerator : ℚ) / (a.denominator : ℚ) + (b.numerator : ℚ) / (b.denominator : ℚ)).den : Int) ∧
    (a.numerator * b.denominator + b.numerator * a.denominator = 0 → Rational.Add a b = ⟨0, 1⟩) ∧
    (a.numerator * b.denominator + b.numerator * a.denominator = a.denominator * b.denominator →
      Rational.Add a b = ⟨1, 1⟩) := by
  have ha' : (a.denominator : ℚ) ≠ 0 := by exact_mod_cast ha
  have hb' : (b.denominator : ℚ) ≠ 0 := by exact_mod_cast hb
  have hden : a.denominator * b.denominator ≠ 0 := mul_ne_zero ha hb
  have hsum : (a.numerator : ℚ) / (a.denominator : ℚ) + (b.numerator : ℚ) / (b.denominator : ℚ) =
      ((a.numerator * b.denominator + b.numerator * a.denominator : Int) : ℚ) /
        ((a.denominator * b.denominator : Int) : ℚ) := by
    push_cast
    field_simp
  have hzero : a.numerator * b.denominator + b.numerator * a.denominator = 0 →
      Rational.Add a b = ⟨0, 1⟩ := by
    intro h
    simp [Rational.Add, Numerator, Denominator, h]
  have hone : a.numerator * b.denominator + b.numerator * a.denominator =
      a.denominator * b.denominator → Rational.Add a b = ⟨1, 1⟩ := by
    intro h
    simp [Rational.Add, Numerator, Denominator, h, hden, ha, hb]
  have hmain : 0 < (Rational.Add a b).denominator ∧
      Int.gcd (Rational.Add a b).numerator (Rational.Add a b).denominator = 1 ∧
      ((Rational.Add a b).numerator : ℚ) / ((Rational.Add a b).denominator : ℚ) =
        (a.numerator : ℚ) / (a.denominator : ℚ) + (b.numerator : ℚ) / (b.denominator : ℚ) := by
    by_cases h0 : a.numerator * b.denominator + b.numerator * a.denominator = 0
    · rw [hzero h0, hsum, h0]
      refine ⟨by decide, by decide, ?_⟩
      norm_num
    · have e : Rational.Add a b =
          if a.numerator * b.denominator + b.numerator * a.denominator =
              a.denominator * b.denominator then (⟨1, 1⟩ : Rational)
          else ToLowestTerms (flipSign ⟨a.numerator * b.denominator + b.numerator * a.denominator,
            a.denominator * b.denominator⟩) := by
        simp only [Rational.Add, Numerator, Denominator]
        rw [if_pos h0]
      rw [e, hsum]
      exact one_or_reduced _ _ h0 hden
  obtain ⟨h1, h2, h3⟩ := hmain
  obtain ⟨h4, h5⟩ := fields_of_canonical (Rational.Add a b) h1 h2 _ h3
  exact ⟨h1, h2, h3, h4, h5, hzero, hone⟩

/-- Witness of C6: `1/2 + 1/3` is `5/6`. -/
theorem Add_canonical_witness :
    Rational.Add ⟨1, 2⟩ ⟨1, 3⟩ = ⟨5, 6⟩ ∧ Int.gcd (Rational.Add ⟨1, 2⟩ ⟨1, 3⟩).numerator
      (Rational.Add ⟨1, 2⟩ ⟨1, 3⟩).denominator = 1 :=
  ⟨by decide, (Add_canonical ⟨1, 2⟩ ⟨1, 3⟩ (by decide) (by decide)).2.1⟩

/-- Claim C7: when the product of the numerators is zero `Multiply` returns `0` over
the raw product of the denominators; otherwise, for nonzero denominators, it
returns the canonical representation of the product: positive denominator,
coprime fields and the value `(a.num/a.den) * (b.num/b.den)`. -/
theorem Multiply_spec (a b : Rational) :
    (a.numerator * b.numerator = 0 →
      Multiply a b = ⟨0, a.denominator * b.denominator⟩) ∧
    (a.numerator * b.numerator ≠ 0 → a.denominator ≠ 0 → b.denominator ≠ 0 →
      0 < (Multiply a b).denominator ∧
      Int.gcd (Multiply a b).numerator (Multiply a b).denominator = 1 ∧
      ((Multiply a b).numerator : ℚ) / ((Multiply a b).denominator : ℚ) =
        (a.numerator : ℚ) / (a.denominator : ℚ) * ((b.numerator : ℚ) / (b.denominator : ℚ)) ∧
      (Multiply a b).numerator =
        ((a.numerator : ℚ) / (a.denominator : ℚ) * ((b.numerator : ℚ) / (b.denominator : ℚ))).num ∧
      (Multiply a b).denominator =
        (((a.numerator : ℚ) / (a.denominator : ℚ) *
          ((b.numerator : ℚ) / (b.denominator : ℚ))).den : Int)) := by
  constructor
  · intro h
    simp [Multiply, Numerator, Denominator, h]
  · intro h0 ha hb
    have hden : a.denominator * b.denominator ≠ 0 := mul_ne_zero ha hb
    have hprod : (a.numerator : ℚ) / (a.denominator : ℚ) * ((b.numerator : ℚ) / (b.denominator : ℚ)) =
        ((a.numerator * b.numerator : Int) : ℚ) / ((a.denominator * b.denominator : Int) : ℚ) := by
      push_cast
      rw [div_mul_div_comm]
    have e : Multiply a b =
        if a.numerator * b.numerator = a.denominator * b.denominator then (⟨1, 1⟩ : Rational)
        else ToLowestTerms (flipSign ⟨a.numerator * b.numerator,
          a.denominator * b.denominator⟩) := by
      simp only [Multiply, Numerator, Denominator]
      rw [if_pos h0]
    have hmain := one_or_reduced _ _ h0 hden
    rw [← e, ← hprod] at hmain
    obtain ⟨h1, h2, h3⟩ := hmain
    obtain ⟨h4, h5⟩ := fields_of_canonical (Multiply a b) h1 h2 _ h3
    exact ⟨h1, h2, h3, h4, h5⟩

/-- Witness of C7: `0/3 * 2/5` is `0/15`, and `2/3 * 3/(-4)` is `-1/2`. -/
theorem Multiply_spec_witness :
    Multiply ⟨0, 3⟩ ⟨2, 5⟩ = ⟨0, 3 * 5⟩ ∧
    (Multiply ⟨2, 3⟩ ⟨3, -4⟩ = ⟨-1, 2⟩ ∧ 0 < (Multiply ⟨2, 3⟩ ⟨3, -4⟩).denominator) :=
  ⟨(Multiply_spec ⟨0, 3⟩ ⟨2, 5⟩).1 (by decide),
    by decide,
    ((Multiply_spec ⟨2, 3⟩ ⟨3, -4⟩).2 (by decide) (by decide) (by decide)).1⟩

/-- What `Divide` returns when the three guards of line 177 hold. -/
theorem Divide_of_valid (a b : Rational) (h1 : a.denominator ≠ 0) (h2 : b.numerator ≠ 0)
    (h3 : b.denominator ≠ 0) :
    Divide a b =
      (if a.numerator * b.denominator = a.denominator * b.numerator then (⟨1, 1⟩ : Rational)
        else ToLowestTerms (flipSign ⟨a.numerator * b.denominator,
          a.denominator * b.numerator⟩), none) := by
  have hden : a.denominator * b.numerator ≠ 0 := mul_ne_zero h1 h2
  have hf : (flipSign ⟨a.numerator * b.denominator, a.denominator * b.numerator⟩).denominator ≠ 0 :=
    ne_of_gt (flipSign_den_pos _ hden)
  simp only [Divide, Numerator, Denominator]
  rw [if_pos ⟨h1, h2, h3⟩]
  by_cases h : a.numerator * b.denominator = a.denominator * b.numerator
  · rw [if_pos h, if_pos h]
  · rw [if_neg h, if_neg h]
    simp only [makeRational]
    rw [if_neg hf]

/-- Claim C8: `Divide` returns a non-nil error exactly when the denominator of the
receiver or the numerator of the argument is zero. -/
theorem Divide_error_iff (a b : Rational) :
    (Divide a b).2 ≠ none ↔ (a.denominator = 0 ∨ b.numerator = 0) := by
  by_cases hg : a.denominator ≠ 0 ∧ b.numerator ≠ 0 ∧ b.denominator ≠ 0
  · rw [Divide_of_valid a b hg.1 hg.2.1 hg.2.2]
    simp [hg.1, hg.2.1]
  · by_cases hz : a.denominator = 0 ∨ b.numerator = 0
    · simp only [Divide, Numerator, Denominator]
      rw [if_neg hg, if_pos hz]
      simp [hz]
    · have h1 : a.denominator ≠ 0 := fun h => hz (Or.inl h)
      have h2 : b.numerator ≠ 0 := fun h => hz (Or.inr h)
      simp only [Divide, Numerator, Denominator]
      rw [if_neg hg, if_neg hz]
      simp only [makeRational]
      rw [if_neg (mul_ne_zero h1 h2)]
      simp [hz]

/-- Claim C9: when the denominators and the numerator of the divisor are not zero,
`Divide` succeeds with a result of positive denominator that denotes the exact
quotient. -/
theorem Divide_exact (a b : Rational) (h1 : a.denominator ≠ 0) (h2 : b.numerator ≠ 0)
    (h3 : b.denominator ≠ 0) :
    (Divide a b).2 = none ∧
    0 < (Divide a b).1.denominator ∧
    (Divide a b).1.numerator * (a.denominator * b.numerator) =
      (Divide a b).1.denominator * (a.numerator * b.denominator) := by
  have hden : a.denominator * b.numerator ≠ 0 := mul_ne_zero h1 h2
  rw [Divide_of_valid a b h1 h2 h3]
  refine ⟨rfl, ?_⟩
  simp only
  by_cases h : a.numerator * b.denominator = a.denominator * b.numerator
  · rw [if_pos h]
    simp only
    exact ⟨by decide, by rw [h]⟩
  · rw [if_neg h, ToLowestTerms_flipSign]
    refine ⟨ToLowestTerms_den_pos ⟨_, _⟩ hden, ?_⟩
    have := ToLowestTerms_cross ⟨a.numerator * b.denominator, a.denominator * b.numerator⟩
    simp only at this
    linarith

/-- Witness of C9: `(3/4) / (-9/2)` is `-1/6`, without error. -/
theorem Divide_exact_witness :
    Divide ⟨3, 4⟩ ⟨-9, 2⟩ = (⟨-1, 6⟩, none) ∧ 0 < (Divide ⟨3, 4⟩ ⟨-9, 2⟩).1.denominator :=
  ⟨by decide, (Divide_exact ⟨3, 4⟩ ⟨-9, 2⟩ (by decide) (by decide) (by decide)).2.1⟩

/-- Claim C10 (a zero quotient is not reduced): `Divide` of `0/1` by `2/1` succeeds
with `0/2`, and `2` divides both fields of that result. -/
theorem Divide_zero_not_reduced :
    Divide ⟨0, 1⟩ ⟨2, 1⟩ = (⟨0, 2⟩, none) ∧
    ¬ (∀ k : Int, 1 < k →
        ¬ (k ∣ (Divide ⟨0, 1⟩ ⟨2, 1⟩).1.numerator ∧ k ∣ (Divide ⟨0, 1⟩ ⟨2, 1⟩).1.denominator)) := by
  have h : Divide ⟨0, 1⟩ ⟨2, 1⟩ = (⟨0, 2⟩, none) := by decide
  refine ⟨h, ?_⟩
  rw [h]
  intro hall
  exact hall 2 (by decide) ⟨by decide, by decide⟩

/-! ## Comparison, addition and reduction: further lemmas -/

namespace Rational

/-- The comparison of `Equal` is the comparison of the cross products of the
raw fields, whatever the operands. -/
theorem Equal_iff_cross (a b : Rational) :
    Equal a b = true ↔ a.numerator * b.denominator = a.denominator * b.numerator := by
  obtain ⟨ga, hga, a1, a2⟩ := ToLowestTerms_scaled a
  obtain ⟨gb, hgb, b1, b2⟩ := ToLowestTerms_scaled b
  have hfa : (flipSign a).numerator * (flipSign b).denominator =
      (flipSign a).denominator * (flipSign b).numerator ↔
      a.numerator * b.denominator = a.denominator * b.numerator := by
    rcases flipSign_cases a with h | h <;> rcases flipSign_cases b with h' | h' <;>
      rw [h, h'] <;> simp only <;> constructor <;> intro hh <;> linarith
  unfold Equal
  simp only [Numerator, Denominator, decide_eq_true_eq]
  rw [← hfa, a1, a2, b1, b2]
  have hg : ga * gb ≠ 0 := mul_ne_zero (ne_of_gt hga) (ne_of_gt hgb)
  constructor
  · intro h
    calc ga * (ToLowestTerms a).numerator * (gb * (ToLowestTerms b).denominator)
        = ga * gb * ((ToLowestTerms a).numerator * (ToLowestTerms b).denominator) := by ring
      _ = ga * gb * ((ToLowestTerms a).denominator * (ToLowestTerms b).numerator) := by rw [h]
      _ = ga * (ToLowestTerms a).denominator * (gb * (ToLowestTerms b).numerator) := by ring
  · intro h
    apply mul_left_cancel₀ hg
    calc ga * gb * ((ToLowestTerms a).numerator * (ToLowestTerms b).denominator)
        = ga * (ToLowestTerms a).numerator * (gb * (ToLowestTerms b).denominator) := by ring
      _ = ga * (ToLowestTerms a).denominator * (gb * (ToLowestTerms b).numerator) := h
      _ = ga * gb * ((ToLowestTerms a).denominator * (ToLowestTerms b).numerator) := by ring

/-- For nonzero denominators `LessThan` is the strict order of the values. -/
theorem LessThan_iff_val (a b : Rational) (ha : a.denominator ≠ 0) (hb : b.denominator ≠ 0) :
    LessThan a b = true ↔
      (a.numerator : ℚ) / (a.denominator : ℚ) < (b.numerator : ℚ) / (b.denominator : ℚ) := by
  have hfa := flipSign_den_pos a ha
  have htb := ToLowestTerms_den_pos b hb
  rw [LessThan_of_den_ne_zero a b hb, decide_eq_true_eq, ← flipSign_val a, ← ToLowestTerms_val b,
    div_lt_div_iff₀ (by exact_mod_cast hfa) (by exact_mod_cast htb)]
  constructor
  · intro h
    exact_mod_cast h
  · intro h
    exact_mod_cast h

/-- For nonzero denominators `LessThan` fails exactly when the value of the
argument is at most the value of the receiver. -/
theorem LessThan_false_iff_val (a b : Rational) (ha : a.denominator ≠ 0)
    (hb : b.denominator ≠ 0) :
    LessThan a b = false ↔
      (b.numerator : ℚ) / (b.denominator : ℚ) ≤ (a.numerator : ℚ) / (a.denominator : ℚ) := by
  rw [← not_lt, ← LessThan_iff_val a b ha hb]
  simp

/-- With a zero denominator and a nonzero numerator the scan makes no
iteration and the fraction is returned as it is. -/
theorem ToLowestTerms_zero_den (r : Rational) (hd : r.denominator = 0) :
    ToLowestTerms r = r := by
  have hf : flipSign r = r := flipSign_of_nonneg r (by omega)
  have hc : curDenominator r = 0 := by
    unfold curDenominator
    rw [hd]
    simp
  have hs : ∀ n : Int, scanGcd n 0 = 0 := by
    intro n
    unfold scanGcd
    cases n.toNat with
    | zero => rfl
    | succ k => simp [gcdLoop]
  unfold ToLowestTerms
  simp only
  rw [hf, hc, hs]
  simp

/-- For nonzero denominators `Equal` is equality of the values. -/
theorem Equal_iff_val (a b : Rational) (ha : a.denominator ≠ 0) (hb : b.denominator ≠ 0) :
    Equal a b = true ↔
      (a.numerator : ℚ) / (a.denominator : ℚ) = (b.numerator : ℚ) / (b.denominator : ℚ) := by
  rw [Equal_iff_cross, div_eq_div_iff (by exact_mod_cast ha) (by exact_mod_cast hb)]
  constructor
  · intro h
    have : ((a.numerator * b.denominator : Int) : ℚ) = ((a.denominator * b.numerator : Int) : ℚ) := by
      rw [h]
    push_cast at this
    linarith
  · intro h
    have : ((a.numerator * b.denominator : Int) : ℚ) = ((a.denominator * b.numerator : Int) : ℚ) := by
      push_cast; linarith
    exact_mod_cast this

/-- For nonzero denominators the result of `Add` has a positive denominator,
coprime fields and the value of the sum. -/
theorem Add_reduced (a b : Rational) (ha : a.denominator ≠ 0) (hb : b.denominator ≠ 0) :
    0 < (Rational.Add a b).denominator ∧
    Int.gcd (Rational.Add a b).numerator (Rational.Add a b).denominator = 1 ∧
    ((Rational.Add a b).numerator : ℚ) / ((Rational.Add a b).denominator : ℚ) =
      (a.numerator : ℚ) / (a.denominator : ℚ) + (b.numerator : ℚ) / (b.denominator : ℚ) := by
  have ha' : (a.denominator : ℚ) ≠ 0 := by exact_mod_cast ha
  have hb' : (b.denominator : ℚ) ≠ 0 := by exact_mod_cast hb
  have hden : a.denominator * b.denominator ≠ 0 := mul_ne_zero ha hb
  have hsum : (a.numerator : ℚ) / (a.denominator : ℚ) + (b.numerator : ℚ) / (b.denominator : ℚ) =
      ((a.numerator * b.denominator + b.numerator * a.denominator : Int) : ℚ) /
        ((a.denominator * b.denominator : Int) : ℚ) := by
    push_cast
    field_simp
  by_cases h0 : a.numerator * b.denominator + b.numerator * a.denominator = 0
  · have e : Rational.Add a b = ⟨0, 1⟩ := by
      simp [Rational.Add, Numerator, Denominator, h0]
    rw [e, hsum, h0]
    refine ⟨by decide, by decide, ?_⟩
    norm_num
  · have e : Rational.Add a b =
        if a.numerator * b.denominator + b.numerator * a.denominator =
            a.denominator * b.denominator then (⟨1, 1⟩ : Rational)
        else ToLowestTerms (flipSign ⟨a.numerator * b.denominator + b.numerator * a.denominator,
          a.denominator * b.denominator⟩) := by
      simp only [Rational.Add, Numerator, Denominator]
      rw [if_pos h0]
    rw [e, hsum]
    exact one_or_reduced _ _ h0 hden

end Rational

/-! ## The harmonic sum and the sorts: further lemmas -/

/-- Invariant of the loop of `makeHarmonicSum`: entered at counter `k + 1` with
the canonical form of the `k`-th harmonic number, it ends with the canonical
form of the `n`-th. -/
theorem harmonicLoop_inv (n : Nat) : ∀ (fuel k : Nat) (sum : Rational), k ≤ n → n - k ≤ fuel →
    0 < sum.denominator → Int.gcd sum.numerator sum.denominator = 1 →
    (sum.numerator : ℚ) / (sum.denominator : ℚ) =
      ∑ i in Finset.range k, (1 : ℚ) / ((i : ℚ) + 1) →
    0 < (harmonicLoop n fuel ((k : Int) + 1) sum).denominator ∧
    Int.gcd (harmonicLoop n fuel ((k : Int) + 1) sum).numerator
      (harmonicLoop n fuel ((k : Int) + 1) sum).denominator = 1 ∧
    ((harmonicLoop n fuel ((k : Int) + 1) sum).numerator : ℚ) /
      ((harmonicLoop n fuel ((k : Int) + 1) sum).denominator : ℚ) =
        ∑ i in Finset.range n, (1 : ℚ) / ((i : ℚ) + 1) := by
  intro fuel
  induction fuel with
  | zero =>
    intro k sum hk hf hpos hco hval
    have : k = n := by omega
    subst this
    exact ⟨hpos, hco, hval⟩
  | succ fuel ih =>
    intro k sum hk hf hpos hco hval
    simp only [harmonicLoop]
    by_cases hc : (k : Int) + 1 ≤ (n : Int)
    · rw [if_pos hc]
      have hk1 : ((k : Int) + 1) ≠ 0 := by omega
      obtain ⟨h1, h2, h3⟩ := Rational.Add_reduced sum ⟨1, (k : Int) + 1⟩ (ne_of_gt hpos) hk1
      have hcast : (((k + 1 : Nat) : Int) + 1) = (k : Int) + 1 + 1 := by push_cast; ring
      have := ih (k + 1) (Rational.Add sum ⟨1, (k : Int) + 1⟩) (by omega) (by omega) h1 h2
        (by
          rw [h3, hval, Finset.sum_range_succ]
          push_cast
          ring)
      rw [hcast] at this
      exact this
    · rw [if_neg hc]
      have : k = n := by omega
      subst this
      exact ⟨hpos, hco, hval⟩

/-- The output of the insertion sort loops is a permutation of the input. -/
theorem outerLoop_perm {α : Type} (before : α → α → Bool) (lst : List α) :
    (outerLoop before lst.length 0 lst).Perm lst := by
  rw [outerLoop_eq_insertionSort]
  exact (List.reverse_perm _).trans ((List.perm_insertionSort _ _).trans (List.reverse_perm _))

/-- With a swap test that holds exactly when `newList[j-1] > newList[j]` in a
linear order, the output of the loops is in non-decreasing order. -/
theorem outerLoop_gt_sorted {α : Type} [LinearOrder α] (before : α → α → Bool)
    (hb : ∀ p c : α, before p c = true ↔ c < p) (lst : List α) :
    List.Sorted (fun a b => a ≤ b) (outerLoop before lst.length 0 lst) := by
  have hr : ∀ a b : α, before b a = false ↔ b ≤ a := by
    intro a b
    rw [← not_lt, ← hb b a]
    simp
  rw [outerLoop_eq_insertionSort]
  haveI : IsTotal α (fun a b => before b a = false) :=
    ⟨fun a b => by
      simp only [hr]
      exact le_total b a⟩
  haveI : IsTrans α (fun a b => before b a = false) :=
    ⟨fun a b c h1 h2 => by
      simp only [hr] at h1 h2 ⊢
      exact le_trans h2 h1⟩
  have hs := List.sorted_insertionSort (fun a b => before b a = false) lst.reverse
  unfold List.Sorted
  rw [List.pairwise_reverse]
  refine List.Pairwise.imp ?_ hs
  intro a b h
  exact (hr a b).mp h

/-- Inserting into a list does not reorder the elements picked by `p` when any
two picked elements are related. -/
theorem filter_orderedInsert {α : Type} (r : α → α → Prop) [DecidableRel r] (p : α → Bool)
    (a : α) : ∀ (l : List α), (p a = true → ∀ b ∈ l, p b = true → r a b) →
      (l.orderedInsert r a).filter p = (a :: l).filter p := by
  intro l
  induction l with
  | nil => intro _; rfl
  | cons b l ih =>
    intro h
    simp only [List.orderedInsert]
    by_cases hab : r a b
    · rw [if_pos hab]
    · rw [if_neg hab]
      have ih' := ih (fun ha c hc hpc => h ha c (List.mem_cons_of_mem _ hc) hpc)
      have hnot : ¬ (p a = true ∧ p b = true) := fun hh =>
        hab (h hh.1 b (List.mem_cons_self _ _) hh.2)
      rw [List.filter_cons, ih']
      by_cases hpa : p a = true
      · have hpb : p b = false := by
          cases hb : p b with
          | false => rfl
          | true => exact absurd ⟨hpa, hb⟩ hnot
        simp [List.filter_cons, hpa, hpb]
      · have hpa' : p a = false := by simpa using hpa
        simp [List.filter_cons, hpa']

/-- Insertion sort keeps the order of the elements picked by `p` when any two
picked elements of the list are related. -/
theorem filter_insertionSort {α : Type} (r : α → α → Prop) [DecidableRel r] (p : α → Bool) :
    ∀ (l : List α), (∀ a ∈ l, ∀ b ∈ l, p a = true → p b = true → r a b) →
      (l.insertionSort r).filter p = l.filter p := by
  intro l
  induction l with
  | nil => intro _; rfl
  | cons a l ih =>
    intro h
    simp only [List.insertionSort]
    rw [filter_orderedInsert r p a _ (fun ha b hb hpb =>
      h a (List.mem_cons_self _ _) b
        (List.mem_cons_of_mem _ ((List.mem_insertionSort r).mp hb)) ha hpb)]
    rw [List.filter_cons, List.filter_cons,
      ih (fun x hx y hy => h x (List.mem_cons_of_mem _ hx) y (List.mem_cons_of_mem _ hy))]

/-! ## The 64-bit reading of `ToLowestTerms` and `Equal` -/

/-- A value in the range of `int` is not changed by the wrap-around. -/
theorem wrap64_eq (x : Int) (h1 : -9223372036854775808 ≤ x) (h2 : x < 9223372036854775808) :
    wrap64 x = x := by
  unfold wrap64
  omega

namespace Rational

/-- No negation wraps when both fields are above the minimum `int`: the 64-bit
sign flip is the sign flip over the integers. -/
theorem flipSign64_eq (r : Rational)
    (hn1 : -9223372036854775808 < r.numerator) (hn2 : r.numerator < 9223372036854775808)
    (hd1 : -9223372036854775808 < r.denominator) :
    flipSign64 r = flipSign r := by
  unfold flipSign64 flipSign
  by_cases h : r.denominator < 0
  · rw [if_pos h, if_pos h, wrap64_eq _ (by omega) (by omega), wrap64_eq _ (by omega) (by omega)]
  · rw [if_neg h, if_neg h]

/-- The 64-bit `curNumerator` is the one over the integers when the numerator
is above the minimum `int`. -/
theorem curNumerator64_eq (r : Rational)
    (hn1 : -9223372036854775808 < r.numerator) (hn2 : r.numerator < 9223372036854775808) :
    curNumerator64 r = curNumerator r := by
  unfold curNumerator64 curNumerator
  by_cases h : r.numerator < 0 ∧ r.denominator > 0
  · rw [if_pos h, if_pos h, wrap64_eq _ (by omega) (by omega)]
  · rw [if_neg h, if_neg h]

/-- The 64-bit `curDenominator` is the one over the integers when the
denominator is above the minimum `int`. -/
theorem curDenominator64_eq (r : Rational)
    (hd1 : -9223372036854775808 < r.denominator) (hd2 : r.denominator < 9223372036854775808) :
    curDenominator64 r = curDenominator r := by
  unfold curDenominator64 curDenominator
  by_cases h : r.numerator < 0 ∧ r.denominator > 0
  · rw [if_pos h, if_pos h]
  · rw [if_neg h, if_neg h]
    by_cases h' : r.denominator < 0 ∧ r.numerator ≥ 0
    · rw [if_pos h', if_pos h', wrap64_eq _ (by omega) (by omega)]
    · rw [if_neg h', if_neg h']

/-- While one of the bounds of the scan is below the maximum `int` the counter
never wraps, and the 64-bit loop returns what the loop over the integers
returns. -/
theorem gcdLoop64_eq (n d : Int)
    (hb : n < 9223372036854775807 ∨ d < 9223372036854775807) :
    ∀ (fuel : Nat) (i g : Int), 1 ≤ i → (n + 1 - i).toNat ≤ fuel →
      gcdLoop64 n d (fuel + 1) i g = some (gcdLoop n d fuel i g) := by
  intro fuel
  induction fuel with
  | zero =>
    intro i g hi hf
    have hc : ¬ (i ≤ n ∧ i ≤ d) := by omega
    simp only [gcdLoop64, gcdLoop, if_neg hc]
  | succ fuel ih =>
    intro i g hi hf
    by_cases hc : i ≤ n ∧ i ≤ d
    · have h0 : i ≠ 0 := by omega
      have hw : wrap64 (i + 1) = i + 1 := wrap64_eq _ (by omega) (by omega)
      have hstep := ih (i + 1) (if n.tmod i = 0 ∧ d.tmod i = 0 then i else g) (by omega)
        (by omega)
      rw [gcdLoop64, if_pos hc, if_neg h0, hw, hstep, gcdLoop, if_pos hc]
    · rw [gcdLoop64, if_neg hc, gcdLoop, if_neg hc]

/-- The 64-bit scan returns what the scan over the integers returns. -/
theorem scanGcd64_eq (n d : Int) (hn : n < 9223372036854775808)
    (hb : n < 9223372036854775807 ∨ d < 9223372036854775807) :
    scanGcd64 n d = some (scanGcd n d) := by
  have h := gcdLoop64_eq n d hb 18446744073709551615 1 0 (by omega) (by omega)
  have hf := gcdLoop_fuel n d 18446744073709551615 1 0 (by omega)
  have hf' := gcdLoop_fuel n d n.toNat 1 0 (by omega)
  unfold scanGcd64 scanGcd
  rw [hf', ← hf]
  exact h

/-- A quotient by a positive integer stays within symmetric bounds. -/
theorem bound_of_mul (g k x b : Int) (hg : 1 ≤ g) (hx : x = g * k) (h1 : -b < x) (h2 : x < b) :
    -b < k ∧ k < b := by
  constructor
  · by_contra hcon
    have hk : k ≤ -b := by omega
    have hbpos : 0 < b := by omega
    have : g * k ≤ 1 * k := by
      apply mul_le_mul_of_nonpos_right hg
      omega
    omega
  · by_contra hcon
    have hk : b ≤ k := by omega
    have hbpos : 0 < b := by omega
    have : 1 * k ≤ g * k := by
      apply mul_le_mul_of_nonneg_right hg
      omega
    omega

/-- The sign flip keeps symmetric bounds on the fields. -/
theorem flipSign_bounds (r : Rational) (b : Int)
    (hn1 : -b < r.numerator) (hn2 : r.numerator < b)
    (hd1 : -b < r.denominator) (hd2 : r.denominator < b) :
    (-b < (flipSign r).numerator ∧ (flipSign r).numerator < b) ∧
    (-b < (flipSign r).denominator ∧ (flipSign r).denominator < b) := by
  rcases flipSign_cases r with h | h
  · rw [h]; exact ⟨⟨hn1, hn2⟩, ⟨hd1, hd2⟩⟩
  · rw [h]; simp only; omega

/-- Reduction keeps symmetric bounds on the fields. -/
theorem ToLowestTerms_bounds (r : Rational) (b : Int)
    (hn1 : -b < r.numerator) (hn2 : r.numerator < b)
    (hd1 : -b < r.denominator) (hd2 : r.denominator < b) :
    (-b < (ToLowestTerms r).numerator ∧ (ToLowestTerms r).numerator < b) ∧
    (-b < (ToLowestTerms r).denominator ∧ (ToLowestTerms r).denominator < b) := by
  obtain ⟨g, hg, h1, h2⟩ := ToLowestTerms_scaled r
  obtain ⟨hfn, hfd⟩ := flipSign_bounds r b hn1 hn2 hd1 hd2
  exact ⟨bound_of_mul g _ _ b (by omega) h1 hfn.1 hfn.2,
    bound_of_mul g _ _ b (by omega) h2 hfd.1 hfd.2⟩

/-- When both fields have absolute value below the maximum `int` nothing wraps
in `ToLowestTerms`: the 64-bit scan and the 64-bit method return what the scan
and the method return over the integers. -/
theorem ToLowestTerms64_eq (r : Rational)
    (hn1 : -9223372036854775807 < r.numerator) (hn2 : r.numerator < 9223372036854775807)
    (hd1 : -9223372036854775807 < r.denominator) (hd2 : r.denominator < 9223372036854775807) :
    scanGcd64 (curNumerator64 (flipSign64 r)) (curDenominator64 (flipSign64 r)) =
      some (scanGcd (curNumerator (flipSign r)) (curDenominator (flipSign r))) ∧
    ToLowestTerms64 r = some (ToLowestTerms r) := by
  obtain ⟨⟨fn1, fn2⟩, ⟨fd1, fd2⟩⟩ := flipSign_bounds r 9223372036854775807 hn1 hn2 hd1 hd2
  have hflip : flipSign64 r = flipSign r := flipSign64_eq r (by omega) (by omega) (by omega)
  have hcn : curNumerator64 (flipSign r) = curNumerator (flipSign r) :=
    curNumerator64_eq _ (by omega) (by omega)
  have hcd : curDenominator64 (flipSign r) = curDenominator (flipSign r) :=
    curDenominator64_eq _ (by omega) (by omega)
  have hcnb : curNumerator (flipSign r) < 9223372036854775807 := by
    unfold curNumerator; split_ifs <;> omega
  have hscan : scanGcd64 (curNumerator64 (flipSign64 r)) (curDenominator64 (flipSign64 r)) =
      some (scanGcd (curNumerator (flipSign r)) (curDenominator (flipSign r))) := by
    rw [hflip, hcn, hcd]
    exact scanGcd64_eq _ _ (by omega) (Or.inl hcnb)
  refine ⟨hscan, ?_⟩
  unfold ToLowestTerms64 ToLowestTerms
  simp only
  rw [hscan]
  simp only
  rw [hflip]
  by_cases hg : scanGcd (curNumerator (flipSign r)) (curDenominator (flipSign r)) > 1
  · rw [if_pos hg, if_pos hg]
    rcases scanGcd_cur_dvd (flipSign r) with h | ⟨hdn, hdd⟩
    · omega
    · have e1 := (Int.mul_tdiv_cancel' hdn).symm
      have e2 := (Int.mul_tdiv_cancel' hdd).symm
      obtain ⟨b1, b2⟩ := bound_of_mul _ _ _ 9223372036854775807 (by omega) e1 fn1 fn2
      obtain ⟨b3, b4⟩ := bound_of_mul _ _ _ 9223372036854775807 (by omega) e2 fd1 fd2
      rw [wrap64_eq _ (by omega) (by omega), wrap64_eq _ (by omega) (by omega)]
  · rw [if_neg hg, if_neg hg]

/-- Reduction is idempotent. -/
theorem ToLowestTerms_idem (r : Rational) :
    ToLowestTerms (ToLowestTerms r) = ToLowestTerms r := by
  by_cases hd : r.denominator = 0
  · rw [ToLowestTerms_zero_den r hd, ToLowestTerms_zero_den r hd]
  · by_cases hn : r.numerator = 0
    · rw [ToLowestTerms_zero_num r hn, ToLowestTerms_flipSign, ToLowestTerms_zero_num r hn]
    · have hpos := ToLowestTerms_den_pos r hd
      have hco := ToLowestTerms_coprime r hn hd
      have hnum : (ToLowestTerms r).numerator ≠ 0 := by
        obtain ⟨g, hg, h1, _⟩ := ToLowestTerms_scaled r
        intro h0
        rw [h0] at h1
        rcases flipSign_cases r with h | h
        · rw [h] at h1; simp at h1; exact hn h1
        · rw [h] at h1; simp at h1; exact hn h1
      rw [ToLowestTerms_of_ne_zero _ hnum (ne_of_gt hpos), hco,
        flipSign_of_nonneg _ (le_of_lt hpos)]
      simp

/-- Over the integers, for a fraction with numerator `≤ 0` and denominator
`> 0` the divisor scan runs on `-numerator` and can yield `0` only when the
numerator is `0`; when the numerator is negative it yields
`g = gcd(|numerator|, denominator) ≥ 1` and `ToLowestTerms` returns
`numerator/g` over `denominator/g`, which is the input field for field only
when `g = 1`. -/
theorem ToLowestTerms_nonpos_int (a : Rational) (hn : a.numerator ≤ 0)
    (hd : 0 < a.denominator) :
    curNumerator (flipSign a) = -a.numerator ∧
    curDenominator (flipSign a) = a.denominator ∧
    (scanGcd (-a.numerator) a.denominator = 0 → a.numerator = 0) ∧
    (a.numerator < 0 →
      scanGcd (-a.numerator) a.denominator =
        (Nat.gcd a.numerator.natAbs a.denominator.natAbs : Int) ∧
      1 ≤ scanGcd (-a.numerator) a.denominator ∧
      ToLowestTerms a =
        ⟨a.numerator / (Nat.gcd a.numerator.natAbs a.denominator.natAbs : Int),
          a.denominator / (Nat.gcd a.numerator.natAbs a.denominator.natAbs : Int)⟩ ∧
      (ToLowestTerms a = a ↔ Nat.gcd a.numerator.natAbs a.denominator.natAbs = 1)) := by
  have hf : flipSign a = a := flipSign_of_nonneg a (le_of_lt hd)
  have hcur := cur_of_den_pos a hd
  rw [abs_of_nonpos hn] at hcur
  have hneg : a.numerator < 0 →
      scanGcd (-a.numerator) a.denominator =
        (Nat.gcd a.numerator.natAbs a.denominator.natAbs : Int) := by
    intro hlt
    have := scanGcd_flipSign a (ne_of_lt hlt) (ne_of_gt hd)
    rw [hf, hcur.1, hcur.2] at this
    exact this
  have hgpos : a.numerator < 0 → 0 < Nat.gcd a.numerator.natAbs a.denominator.natAbs := by
    intro hlt
    exact Nat.gcd_pos_of_pos_left _ (Int.natAbs_pos.mpr (ne_of_lt hlt))
  refine ⟨by rw [hf]; exact hcur.1, by rw [hf]; exact hcur.2, ?_, ?_⟩
  · intro h0
    by_contra hne
    have hlt : a.numerator < 0 := lt_of_le_of_ne hn hne
    have := hgpos hlt
    rw [hneg hlt] at h0
    omega
  · intro hlt
    have hG := hgpos hlt
    have htlt := ToLowestTerms_of_ne_zero a (ne_of_lt hlt) (ne_of_gt hd)
    rw [hf] at htlt
    change ToLowestTerms a =
      ⟨a.numerator / (Nat.gcd a.numerator.natAbs a.denominator.natAbs : Int),
        a.denominator / (Nat.gcd a.numerator.natAbs a.denominator.natAbs : Int)⟩ at htlt
    refine ⟨hneg hlt, by rw [hneg hlt]; omega, htlt, ?_⟩
    constructor
    · intro he
      rw [htlt] at he
      have hden : a.denominator / (Nat.gcd a.numerator.natAbs a.denominator.natAbs : Int) =
          a.denominator := by
        have := congrArg Rational.denominator he
        exact this
      have hdvd : (Nat.gcd a.numerator.natAbs a.denominator.natAbs : Int) ∣ a.denominator :=
        Int.gcd_dvd_right
      have hmul := Int.ediv_mul_cancel hdvd
      rw [hden] at hmul
      have : a.denominator * (Nat.gcd a.numerator.natAbs a.denominator.natAbs : Int) =
          a.denominator * 1 := by rw [hmul, mul_one]
      have := mul_left_cancel₀ (ne_of_gt hd) this
      exact_mod_cast this
    · intro h1
      rw [htlt, h1]
      simp

end Rational

/-! ## The claims on the harmonic sum, the sorts and the order -/

/-- Claim C11: for every `n ≥ 1`, `makeHarmonicSum n` has a positive
denominator, coprime fields and the value `1/1 + 1/2 + ... + 1/n`, so its
fields are the numerator and the denominator of that rational number in
lowest terms. -/
theorem makeHarmonicSum_canonical (n : Nat) (hn : 1 ≤ n) :
    0 < (makeHarmonicSum (n : Int)).denominator ∧
    Int.gcd (makeHarmonicSum (n : Int)).numerator (makeHarmonicSum (n : Int)).denominator = 1 ∧
    ((makeHarmonicSum (n : Int)).numerator : ℚ) / ((makeHarmonicSum (n : Int)).denominator : ℚ) =
      ∑ i in Finset.range n, (1 : ℚ) / ((i : ℚ) + 1) ∧
    (makeHarmonicSum (n : Int)).numerator =
      (∑ i in Finset.range n, (1 : ℚ) / ((i : ℚ) + 1)).num ∧
    (makeHarmonicSum (n : Int)).denominator =
      ((∑ i in Finset.range n, (1 : ℚ) / ((i : ℚ) + 1)).den : Int) := by
  have h := harmonicLoop_inv n n 1 ⟨1, 1⟩ hn (by omega) (by decide) (by decide)
    (by simp)
  have e : makeHarmonicSum (n : Int) = harmonicLoop n n (((1 : Nat) : Int) + 1) ⟨1, 1⟩ := by
    unfold makeHarmonicSum
    rw [Int.toNat_natCast]
    rfl
  rw [← e] at h
  obtain ⟨h1, h2, h3⟩ := h
  obtain ⟨h4, h5⟩ := fields_of_canonical (makeHarmonicSum (n : Int)) h1 h2 _ h3
  exact ⟨h1, h2, h3, h4, h5⟩

set_option maxRecDepth 4000 in
/-- Witness of C11: `makeHarmonicSum 6` is `49/20`. -/
theorem makeHarmonicSum_canonical_witness :
    makeHarmonicSum 6 = ⟨49, 20⟩ ∧
    Int.gcd (makeHarmonicSum ((6 : Nat) : Int)).numerator
      (makeHarmonicSum ((6 : Nat) : Int)).denominator = 1 :=
  ⟨by decide, (makeHarmonicSum_canonical 6 (by decide)).2.1⟩

/-- Claim C12: `sortInt` returns a permutation of its input in non-decreasing
order, `sortString` returns a permutation of its input in non-decreasing
lexicographic order; `sortInt [3,1,2]` is `[1,2,3]` and
`sortString ["banana","apple"]` is `["apple","banana"]`. -/
theorem sortInt_sortString_sorted_perm :
    (∀ lst : List Int, (sortInt lst).Perm lst ∧ List.Sorted (fun a b => a ≤ b) (sortInt lst)) ∧
    (∀ lst : List String,
      (sortString lst).Perm lst ∧ List.Sorted (fun a b => a ≤ b) (sortString lst)) ∧
    sortInt [3, 1, 2] = [1, 2, 3] ∧
    sortString ["banana", "apple"] = ["apple", "banana"] := by
  refine ⟨fun lst => ⟨outerLoop_perm _ lst, outerLoop_gt_sorted _ (fun p c => by simp) lst⟩,
    fun lst => ⟨outerLoop_perm _ lst, outerLoop_gt_sorted _ (fun p c => by simp) lst⟩,
    by decide, ?_⟩
  simp [sortString, outerLoop, innerLoop]
  decide

/-- Claim C13: `Invert` returns a non-nil error exactly when the numerator is
zero, and otherwise exactly the swapped pair, unreduced and with the signs
unchanged. -/
theorem Invert_spec (a : Rational) :
    ((Invert a).2 ≠ none ↔ a.numerator = 0) ∧
    (a.numerator ≠ 0 → Invert a = (⟨a.denominator, a.numerator⟩, none)) := by
  unfold Invert
  by_cases h : a.numerator = 0
  · rw [if_pos h]
    exact ⟨by simp [h], fun h' => absurd h h'⟩
  · rw [if_neg h]
    exact ⟨by simp [h], fun _ => rfl⟩

/-- Witness of C13: `0/5` has no inverse, and the inverse of `-4/6` is `6/(-4)`. -/
theorem Invert_spec_witness :
    (Invert ⟨0, 5⟩).2 ≠ none ∧ Invert ⟨-4, 6⟩ = (⟨6, -4⟩, none) :=
  ⟨(Invert_spec ⟨0, 5⟩).1.mpr (by decide), (Invert_spec ⟨-4, 6⟩).2 (by decide)⟩

/-- Claim C14: `makeRational n d` returns a non-nil error exactly when `d` is
zero, and otherwise exactly `Rational{n, d}`, unreduced and with the signs
unchanged. -/
theorem makeRational_spec (n d : Int) :
    ((makeRational n d).2 ≠ none ↔ d = 0) ∧
    (d ≠ 0 → makeRational n d = (⟨n, d⟩, none)) := by
  unfold makeRational
  by_cases h : d = 0
  · rw [if_pos h]
    exact ⟨by simp [h], fun h' => absurd h h'⟩
  · rw [if_neg h]
    exact ⟨by simp [h], fun _ => rfl⟩

/-- Witness of C14: `makeRational 3 0` is an error, `makeRational 2 (-4)` is `2/(-4)`. -/
theorem makeRational_spec_witness :
    (makeRational 3 0).2 ≠ none ∧ makeRational 2 (-4) = (⟨2, -4⟩, none) :=
  ⟨(makeRational_spec 3 0).1.mpr (by decide), (makeRational_spec 2 (-4)).2 (by decide)⟩

/-- Counterexample to C15: in 64-bit arithmetic `ToLowestTerms` turns
`1/MinInt64` into `-1/MinInt64`, because `*= -1` cannot flip the minimum `int`:
the denominator of the result is negative. -/
theorem ToLowestTerms64_minInt_den_negative :
    ToLowestTerms64 ⟨1, -9223372036854775808⟩ = some ⟨-1, -9223372036854775808⟩ ∧
    ¬ (∀ a : Rational,
        -9223372036854775808 ≤ a.numerator → a.numerator ≤ 9223372036854775807 →
        -9223372036854775808 ≤ a.denominator → a.denominator ≤ 9223372036854775807 →
        a.denominator ≠ 0 →
        ∃ t, ToLowestTerms64 a = some t ∧ Equal64 a t = some true ∧ 0 ≤ t.denominator) := by
  have e : ToLowestTerms64 ⟨1, -9223372036854775808⟩ = some ⟨-1, -9223372036854775808⟩ := by decide
  refine ⟨e, ?_⟩
  intro hall
  obtain ⟨t, ht, _, hden⟩ := hall ⟨1, -9223372036854775808⟩ (by decide) (by decide) (by decide) (by decide)
    (by decide)
  rw [e] at ht
  cases ht
  exact absurd hden (by decide)

/-- Claim C15, amended: over mathematical integers, for a fraction `a` with
nonzero denominator `Equal a (ToLowestTerms a)` holds and the denominator of
`ToLowestTerms a` is non-negative; in 64-bit arithmetic `ToLowestTerms` and
`Equal` return the same whenever both fields of `a` have absolute value below
the maximum `int`. -/
theorem Equal_ToLowestTerms (a : Rational) (hd : a.denominator ≠ 0) :
    (Equal a (ToLowestTerms a) = true ∧ 0 ≤ (ToLowestTerms a).denominator) ∧
    (-9223372036854775807 < a.numerator → a.numerator < 9223372036854775807 →
      -9223372036854775807 < a.denominator → a.denominator < 9223372036854775807 →
      ToLowestTerms64 a = some (ToLowestTerms a) ∧
      Equal64 a (ToLowestTerms a) = some true) := by
  refine ⟨⟨(Equal_iff_cross a (ToLowestTerms a)).mpr (ToLowestTerms_cross a),
    le_of_lt (ToLowestTerms_den_pos a hd)⟩, ?_⟩
  intro hn1 hn2 hd1 hd2
  have h1 := (ToLowestTerms64_eq a hn1 hn2 hd1 hd2).2
  obtain ⟨⟨tn1, tn2⟩, ⟨td1, td2⟩⟩ := ToLowestTerms_bounds a 9223372036854775807 hn1 hn2 hd1 hd2
  have h2 := (ToLowestTerms64_eq (ToLowestTerms a) tn1 tn2 td1 td2).2
  rw [ToLowestTerms_idem] at h2
  refine ⟨h1, ?_⟩
  unfold Equal64
  rw [h1, h2]
  simp only [Numerator, Denominator]
  have hc : a.ToLowestTerms.numerator * a.ToLowestTerms.denominator =
      a.ToLowestTerms.denominator * a.ToLowestTerms.numerator := mul_comm _ _
  simp [hc]

/-- Witness of C15 at `6/(-4)`, reduced to `-3/2` in both readings. -/
theorem Equal_ToLowestTerms_witness :
    (Equal ⟨6, -4⟩ (ToLowestTerms ⟨6, -4⟩) = true ∧ 0 ≤ (ToLowestTerms ⟨6, -4⟩).denominator) ∧
    (ToLowestTerms64 ⟨6, -4⟩ = some ⟨-3, 2⟩ ∧ Equal64 ⟨6, -4⟩ ⟨-3, 2⟩ = some true) :=
  ⟨(Equal_ToLowestTerms ⟨6, -4⟩ (by decide)).1,
    (Equal_ToLowestTerms ⟨6, -4⟩ (by decide)).2 (by decide) (by decide) (by decide) (by decide)⟩

/-- Counterexample to C16: in 64-bit arithmetic `ToLowestTerms` turns
`1/MinInt64` into `-1/MinInt64` and that into `1/MinInt64` again, so applying
it twice is not applying it once. -/
theorem ToLowestTerms64_not_idempotent :
    ToLowestTerms64 ⟨1, -9223372036854775808⟩ = some ⟨-1, -9223372036854775808⟩ ∧
    ToLowestTerms64 ⟨-1, -9223372036854775808⟩ = some ⟨1, -9223372036854775808⟩ ∧
    ¬ (∀ a : Rational,
        -9223372036854775808 ≤ a.numerator → a.numerator ≤ 9223372036854775807 →
        -9223372036854775808 ≤ a.denominator → a.denominator ≤ 9223372036854775807 →
        (ToLowestTerms64 a).bind ToLowestTerms64 = ToLowestTerms64 a) := by
  have e1 : ToLowestTerms64 ⟨1, -9223372036854775808⟩ = some ⟨-1, -9223372036854775808⟩ := by decide
  have e2 : ToLowestTerms64 ⟨-1, -9223372036854775808⟩ = some ⟨1, -9223372036854775808⟩ := by decide
  refine ⟨e1, e2, ?_⟩
  intro hall
  have h := hall ⟨1, -9223372036854775808⟩ (by decide) (by decide) (by decide) (by decide)
  rw [e1, Option.some_bind, e2] at h
  exact absurd h (by decide)

/-- Claim C16, amended: over mathematical integers `ToLowestTerms` is
idempotent on every fraction, zero numerators, negative denominators and zero
denominators included; in 64-bit arithmetic it returns the same, and is
idempotent, whenever both fields have absolute value below the maximum `int`. -/
theorem ToLowestTerms_idempotent (r : Rational) :
    ToLowestTerms (ToLowestTerms r) = ToLowestTerms r ∧
    (-9223372036854775807 < r.numerator → r.numerator < 9223372036854775807 →
      -9223372036854775807 < r.denominator → r.denominator < 9223372036854775807 →
      ToLowestTerms64 r = some (ToLowestTerms r) ∧
      (ToLowestTerms64 r).bind ToLowestTerms64 = ToLowestTerms64 r) := by
  refine ⟨ToLowestTerms_idem r, ?_⟩
  intro hn1 hn2 hd1 hd2
  have h1 := (ToLowestTerms64_eq r hn1 hn2 hd1 hd2).2
  obtain ⟨⟨tn1, tn2⟩, ⟨td1, td2⟩⟩ := ToLowestTerms_bounds r 9223372036854775807 hn1 hn2 hd1 hd2
  have h2 := (ToLowestTerms64_eq (ToLowestTerms r) tn1 tn2 td1 td2).2
  rw [ToLowestTerms_idem] at h2
  refine ⟨h1, ?_⟩
  rw [h1, Option.some_bind, h2]

/-- Witness of C16 at `-6/(-4)`, `0/(-4)` and `3/0`. -/
theorem ToLowestTerms_idempotent_witness :
    ToLowestTerms (ToLowestTerms ⟨0, -4⟩) = ToLowestTerms ⟨0, -4⟩ ∧
    ToLowestTerms (ToLowestTerms ⟨3, 0⟩) = ToLowestTerms ⟨3, 0⟩ ∧
    (ToLowestTerms64 ⟨-6, -4⟩ = some ⟨3, 2⟩ ∧
      (ToLowestTerms64 ⟨-6, -4⟩).bind ToLowestTerms64 = ToLowestTerms64 ⟨-6, -4⟩) :=
  ⟨(ToLowestTerms_idempotent ⟨0, -4⟩).1, (ToLowestTerms_idempotent ⟨3, 0⟩).1,
    (ToLowestTerms_idempotent ⟨-6, -4⟩).2 (by decide) (by decide) (by decide) (by decide)⟩

/-- Claim C17: on fractions with nonzero denominators `LessThan` is a strict
order: irreflexive, never true in both directions, and transitive. -/
theorem LessThan_strict_order :
    (∀ a : Rational, a.denominator ≠ 0 → LessThan a a = false) ∧
    (∀ a b : Rational, a.denominator ≠ 0 → b.denominator ≠ 0 →
      ¬ (LessThan a b = true ∧ LessThan b a = true)) ∧
    (∀ a b c : Rational, a.denominator ≠ 0 → b.denominator ≠ 0 → c.denominator ≠ 0 →
      LessThan a b = true → LessThan b c = true → LessThan a c = true) := by
  refine ⟨?_, ?_, ?_⟩
  · intro a ha
    rw [LessThan_false_iff_val a a ha ha]
  · intro a b ha hb h
    rw [LessThan_iff_val a b ha hb, LessThan_iff_val b a hb ha] at h
    exact lt_asymm h.1 h.2
  · intro a b c ha hb hc h1 h2
    rw [LessThan_iff_val a b ha hb] at h1
    rw [LessThan_iff_val b c hb hc] at h2
    rw [LessThan_iff_val a c ha hc]
    exact lt_trans h1 h2

/-- Witness of C17: `2/4` is not `LessThan` itself, and from
`1/(-2) < 1/3` and `1/3 < 3/4` follows `1/(-2) < 3/4`. -/
theorem LessThan_strict_order_witness :
    LessThan ⟨2, 4⟩ ⟨2, 4⟩ = false ∧ LessThan ⟨1, -2⟩ ⟨3, 4⟩ = true :=
  ⟨LessThan_strict_order.1 ⟨2, 4⟩ (by decide),
    LessThan_strict_order.2.2 ⟨1, -2⟩ ⟨1, 3⟩ ⟨3, 4⟩ (by decide) (by decide) (by decide)
      (by decide) (by decide)⟩

/-- Claim C18: `sortRational` is stable on fractions with nonzero
denominators: for every value `c` the elements `Equal` to `c` come out in the
order in which they came in, and two `Equal` elements `x` before `y` of the
input are still `x` before `y` in the output. -/
theorem sortRational_stable (lst : List Rational) (h : ∀ q ∈ lst, q.denominator ≠ 0) :
    (∀ c : Rational, c.denominator ≠ 0 →
      (sortRational lst).filter (fun q => Equal q c) = lst.filter (fun q => Equal q c)) ∧
    (∀ x y : Rational, Equal x y = true → List.Sublist [x, y] lst →
      List.Sublist [x, y] (sortRational lst)) := by
  have hfilter : ∀ c : Rational, c.denominator ≠ 0 →
      (sortRational lst).filter (fun q => Equal q c) = lst.filter (fun q => Equal q c) := by
    intro c hc
    unfold sortRational
    rw [outerLoop_eq_insertionSort, List.filter_reverse,
      filter_insertionSort _ (fun q => Equal q c) lst.reverse, List.filter_reverse,
      List.reverse_reverse]
    intro a ha b hb hpa hpb
    have had := h a (List.mem_reverse.mp ha)
    have hbd := h b (List.mem_reverse.mp hb)
    rw [Equal_iff_val a c had hc] at hpa
    rw [Equal_iff_val b c hbd hc] at hpb
    rw [LessThan_false_iff_val b a hbd had, hpa, hpb]
  refine ⟨hfilter, ?_⟩
  intro x y hxy hsub
  have hy : y ∈ lst := hsub.subset (by simp)
  have hyd := h y hy
  have hyy : Equal y y = true := (Equal_iff_cross y y).mpr (mul_comm _ _)
  have h1 : List.Sublist ([x, y].filter (fun q => Equal q y))
      (lst.filter (fun q => Equal q y)) := hsub.filter _
  have h2 : [x, y].filter (fun q => Equal q y) = [x, y] := by
    simp [List.filter_cons, hxy, hyy]
  rw [h2, ← hfilter y hyd] at h1
  exact h1.trans (List.filter_sublist _)

/-- Witness of C18: in `[1/2, 3/4, 2/4]` the equal values `1/2` and `2/4` keep
their order. -/
theorem sortRational_stable_witness :
    sortRational [⟨1, 2⟩, ⟨3, 4⟩, ⟨2, 4⟩] = [⟨3, 4⟩, ⟨1, 2⟩, ⟨2, 4⟩] ∧
    List.Sublist [(⟨1, 2⟩ : Rational), ⟨2, 4⟩] (sortRational [⟨1, 2⟩, ⟨3, 4⟩, ⟨2, 4⟩]) :=
  ⟨by decide,
    (sortRational_stable [⟨1, 2⟩, ⟨3, 4⟩, ⟨2, 4⟩] (by decide)).2 ⟨1, 2⟩ ⟨2, 4⟩ (by decide)
      (by decide)⟩

/-- Counterexample to C19: `-2/4` has numerator `≤ 0` and denominator `> 0`,
yet the divisor scan yields `2` and `ToLowestTerms` returns `-1/2`. -/
theorem ToLowestTerms_neg_numerator_reduced :
    ¬ (∀ a : Rational, a.numerator ≤ 0 → 0 < a.denominator →
        scanGcd (curNumerator (flipSign a)) (curDenominator (flipSign a)) = 0 ∧
        ToLowestTerms a = a) := by
  intro hall
  have h := (hall ⟨-2, 4⟩ (by decide) (by decide)).2
  exact absurd h (by decide)

/-- Claim C19, amended: over mathematical integers, for a fraction with
numerator `≤ 0` and denominator `> 0` the divisor scan runs on `-numerator`
and can yield `0` only when the numerator is `0`; when the numerator is
negative it yields `g = gcd(|numerator|, denominator) ≥ 1` and `ToLowestTerms`
returns `numerator/g` over `denominator/g`, which is the input field for field
only when `g = 1`. In 64-bit arithmetic the scan and `ToLowestTerms` return
the same whenever the numerator is above `-MaxInt64` and the denominator below
`MaxInt64`. -/
theorem ToLowestTerms_nonpos_numerator (a : Rational) (hn : a.numerator ≤ 0)
    (hd : 0 < a.denominator) :
    curNumerator (flipSign a) = -a.numerator ∧
    curDenominator (flipSign a) = a.denominator ∧
    (scanGcd (-a.numerator) a.denominator = 0 → a.numerator = 0) ∧
    (a.numerator < 0 →
      scanGcd (-a.numerator) a.denominator =
        (Nat.gcd a.numerator.natAbs a.denominator.natAbs : Int) ∧
      1 ≤ scanGcd (-a.numerator) a.denominator ∧
      ToLowestTerms a =
        ⟨a.numerator / (Nat.gcd a.numerator.natAbs a.denominator.natAbs : Int),
          a.denominator / (Nat.gcd a.numerator.natAbs a.denominator.natAbs : Int)⟩ ∧
      (ToLowestTerms a = a ↔ Nat.gcd a.numerator.natAbs a.denominator.natAbs = 1)) ∧
    (-9223372036854775807 < a.numerator → a.denominator < 9223372036854775807 →
      scanGcd64 (curNumerator64 (flipSign64 a)) (curDenominator64 (flipSign64 a)) =
        some (scanGcd (-a.numerator) a.denominator) ∧
      ToLowestTerms64 a = some (ToLowestTerms a)) := by
  obtain ⟨h1, h2, h3, h4⟩ := ToLowestTerms_nonpos_int a hn hd
  refine ⟨h1, h2, h3, h4, ?_⟩
  intro hn1 hd2
  have h := ToLowestTerms64_eq a hn1 (by omega) (by omega) hd2
  rw [h1, h2] at h
  exact h

/-- Witness of the amended C19 at `-2/4`, which is reduced to `-1/2` in both
readings. -/
theorem ToLowestTerms_nonpos_numerator_witness :
    scanGcd (-(-2 : Int)) 4 = 2 ∧ ToLowestTerms ⟨-2, 4⟩ = ⟨-1, 2⟩ ∧
    ToLowestTerms64 ⟨-2, 4⟩ = some ⟨-1, 2⟩ :=
  ⟨((ToLowestTerms_nonpos_numerator ⟨-2, 4⟩ (by decide) (by decide)).2.2.2.1 (by decide)).1,
    by decide,
    ((ToLowestTerms_nonpos_numerator ⟨-2, 4⟩ (by decide) (by decide)).2.2.2.2 (by decide)
      (by decide)).2⟩

/-- Claim C20: on fractions with nonzero denominators `sortRational` returns a
permutation of its input in non-increasing order: for adjacent output
elements `x` followed by `y`, and for any `x` that comes before `y` in the
output, `LessThan x y` is false. -/
theorem sortRational_perm_nonincreasing (lst : List Rational)
    (h : ∀ q ∈ lst, q.denominator ≠ 0) :
    (sortRational lst).Perm lst ∧
    List.Chain' (fun x y => LessThan x y = false) (sortRational lst) ∧
    List.Pairwise (fun x y => LessThan x y = false) (sortRational lst) := by
  have hperm : (sortRational lst).Perm lst := outerLoop_perm _ lst
  have hpair : List.Pairwise (fun x y => LessThan x y = false) (sortRational lst) := by
    unfold sortRational
    rw [outerLoop_eq_insertionSort, List.pairwise_reverse]
    have hmap := List.map_insertionSort (fun a b : Rational => LessThan b a = false)
      (fun u v : ℚ => u ≤ v)
      (fun q : Rational => (q.numerator : ℚ) / (q.denominator : ℚ)) lst.reverse
      (by
        intro a ha b hb
        exact LessThan_false_iff_val b a (h b (List.mem_reverse.mp hb))
          (h a (List.mem_reverse.mp ha)))
    have hs := List.sorted_insertionSort (fun u v : ℚ => u ≤ v)
      (lst.reverse.map (fun q : Rational => (q.numerator : ℚ) / (q.denominator : ℚ)))
    rw [← hmap] at hs
    unfold List.Sorted at hs
    rw [List.pairwise_map] at hs
    have hmem : ∀ q ∈ List.insertionSort (fun a b : Rational => LessThan b a = false)
        lst.reverse, q.denominator ≠ 0 := by
      intro q hq
      exact h q (List.mem_reverse.mp ((List.mem_insertionSort _).mp hq))
    refine List.Pairwise.imp_of_mem ?_ hs
    intro a b ha hb hab
    exact (LessThan_false_iff_val b a (hmem b hb) (hmem a ha)).mpr hab
  exact ⟨hperm, hpair.chain', hpair⟩

/-- Witness of C20: `[1/3, 1/(-2), 3/4]` is sorted to `[3/4, 1/3, 1/(-2)]`. -/
theorem sortRational_perm_nonincreasing_witness :
    sortRational [⟨1, 3⟩, ⟨1, -2⟩, ⟨3, 4⟩] = [⟨3, 4⟩, ⟨1, 3⟩, ⟨1, -2⟩] ∧
    List.Chain' (fun x y => LessThan x y = false) (sortRational [⟨1, 3⟩, ⟨1, -2⟩, ⟨3, 4⟩]) :=
  ⟨by decide, (sortRational_perm_nonincreasing [⟨1, 3⟩, ⟨1, -2⟩, ⟨3, 4⟩] (by decide)).2.1⟩

end RationalGo
